import Mathlib

/-!
# Rolling time-window aggregator (`week05/main.go`)

A shallow embedding of `RollingWindow` and of the operations `Add`, `Reduce`, `span` and
`updateOffset`, followed by the properties of the specification that are proved against it.

Modelling conventions.

* Go `int` and `time.Duration` values are mathematical integers (`Int`).  Clock readings are
  durations since process start and bucket counts are bounded by addressable memory, so the
  64-bit range is never approached; `/` and `%` are Go's truncated division and remainder and
  fail on a zero divisor.
* `float64` sums are taken in exact arithmetic (`ℚ`).
* A run-time panic (division by zero, slice index out of range, violated precondition of a window
  operation) is the value `none`.
* The clock is an explicit argument: every call of `timex.Now` / `timex.Since` in the source is
  one clock-reading parameter of the embedded function.
* The lock of the source is not modelled; operations are atomic state transformers.
* A `*Bucket` handed to a visitor is the pair of the slot index and the bucket stored there; the
  visitor returns the bucket it leaves in the slot together with its own new state.
-/

namespace GoLearning

/-! ## Integer operators of the source language -/

/-- Go's integer quotient `a / b`: truncated toward zero, a panic when `b = 0`. -/
def goDiv (a b : Int) : Option Int :=
  if b = 0 then none else some (a.tdiv b)

/-- Go's integer remainder `a % b`: sign of the dividend, a panic when `b = 0`. -/
def goMod (a b : Int) : Option Int :=
  if b = 0 then none else some (a.tmod b)

/-! ## Bucket -/

/-- Modelled from the spec: the `Bucket` type is not declared in the source file; section 3 gives
it a running `sum` and a hit `count`. -/
structure Bucket where
  sum : ℚ
  count : Int
deriving DecidableEq

/-- Modelled from the spec: `Bucket.add` (section 4.1) adds `value` to `sum` and increments
`count` by one. -/
def Bucket.add (b : Bucket) (v : ℚ) : Bucket :=
  { sum := b.sum + v, count := b.count + 1 }

/-- Modelled from the spec: `Bucket.reset` (section 4.1) sets `sum = 0` and `count = 0`. -/
def Bucket.reset (_b : Bucket) : Bucket :=
  { sum := 0, count := 0 }

/-! ## Window -/

/-- Modelled from the spec: the `window` type is not declared in the source file; section 3 makes
it an ordered sequence of buckets of fixed length `size`. -/
structure window where
  buckets : List Bucket
deriving DecidableEq

/-- The number of buckets of a window. -/
def window.size (w : window) : Int :=
  (w.buckets.length : Int)

/-- The bucket stored at an integer index, `none` outside `[0, size)`. -/
def window.bucketAt (w : window) (offset : Int) : Option Bucket :=
  if 0 ≤ offset ∧ offset < w.size then w.buckets[offset.toNat]? else none

/-- Overwrite the bucket stored at an integer index. -/
def window.store (w : window) (offset : Int) (b : Bucket) : window :=
  { buckets := w.buckets.set offset.toNat b }

/-- Modelled from the spec: `window.add(offset, value)` (section 4.2) requires
`0 <= offset < size` and applies `add(value)` to the bucket at `offset`. -/
def window.add (w : window) (offset : Int) (v : ℚ) : Option window :=
  (w.bucketAt offset).map (fun b => w.store offset (b.add v))

/-- Modelled from the spec: `window.resetBucket(offset)` (section 4.2) requires
`0 <= offset < size` and resets that bucket. -/
def window.resetBucket (w : window) (offset : Int) : Option window :=
  (w.bucketAt offset).map (fun b => w.store offset b.reset)

/-- A visitor `func(b *Bucket)` with private state `σ`: it is handed the slot index and the bucket
stored there, and returns the bucket it leaves in the slot and its new state. -/
abbrev Visitor (σ : Type) : Type := Int → Bucket → σ → Bucket × σ

/-- One visitor invocation on the bucket at `idx`. -/
def window.visit {σ : Type} (fn : Visitor σ) (ws : window × σ) (idx : Int) :
    Option (window × σ) :=
  (ws.1.bucketAt idx).map (fun b => ((ws.1.store idx (fn idx b ws.2).1), (fn idx b ws.2).2))

/-- Modelled from the spec: `window.reduce(startOffset, count, visitor)` (section 4.2) requires
`0 <= count <= size` and invokes the visitor on the buckets at `(startOffset + i) % size` for
`i` in `[0, count)`, in that order. -/
def window.reduce {σ : Type} (w : window) (start count : Int) (fn : Visitor σ) (s : σ) :
    Option (window × σ) :=
  if 0 ≤ count ∧ count ≤ w.size then
    (List.range count.toNat).foldlM
      (fun ws (i : Nat) => (goMod (start + (i : Int)) w.size).bind (window.visit fn ws)) (w, s)
  else none

/-! ## RollingWindow -/

/-- The `RollingWindow` struct of the source, without its lock. -/
structure RollingWindow where
  size : Int
  win : window
  interval : Int
  offset : Int
  ignoreCurrent : Bool
  lastTime : Int
deriving DecidableEq

namespace timex

/-- Modelled from the spec: the clock collaborator's `Since(d)` is the reading `now` minus `d`
(section 4.3, `elapsed = now() - lastTime`). -/
def Since (now d : Int) : Int := now - d

end timex

namespace RollingWindow

/-- Source `span` (lines 65-73); `now` is the clock reading taken by `timex.Since`. -/
def span (rw : RollingWindow) (now : Int) : Option Int :=
  (goDiv (timex.Since now rw.lastTime) rw.interval).map fun offset =>
    if 0 ≤ offset ∧ offset < rw.size then offset else rw.size

/-- The reset loop of `updateOffset` (lines 88-90): `i` runs over `0 .. span-1`. -/
def resetExpired (rw : RollingWindow) (offset span : Int) : Option window :=
  (List.range span.toNat).foldlM
    (fun w (i : Nat) => (goMod (offset + (i : Int) + 1) rw.size).bind w.resetBucket) rw.win

/-- Source `updateOffset` (lines 75-98); `t1` is the clock reading inside `span()`, `t2` the one
taken by `timex.Now()` on line 95. -/
def updateOffset (rw : RollingWindow) (t1 t2 : Int) : Option RollingWindow :=
  (rw.span t1).bind fun span =>
    if span ≤ 0 then some rw
    else
      (rw.resetExpired rw.offset span).bind fun win =>
        (goMod (rw.offset + span) rw.size).bind fun offset =>
          (goMod (t2 - rw.lastTime) rw.interval).map fun r =>
            { rw with win := win, offset := offset, lastTime := t2 - r }

/-- Source `Add` (lines 24-34). -/
def Add (rw : RollingWindow) (v : ℚ) (t1 t2 : Int) : Option RollingWindow :=
  (rw.updateOffset t1 t2).bind fun rw1 =>
    (rw1.win.add rw1.offset v).map fun win => { rw1 with win := win }

/-- The local `diff` of `Reduce` (lines 43-53): the number of buckets to read for a given span. -/
def diff (rw : RollingWindow) (span : Int) : Int :=
  if span = 0 ∧ rw.ignoreCurrent = true then rw.size - 1 else rw.size - span

/-- Source `Reduce` (lines 37-61); `now` is the clock reading inside `span()`. -/
def Reduce {σ : Type} (rw : RollingWindow) (fn : Visitor σ) (now : Int) (s : σ) :
    Option (RollingWindow × σ) :=
  (rw.span now).bind fun span =>
    if rw.diff span > 0 then
      (goMod (rw.offset + span + 1) rw.size).bind fun offset =>
        (rw.win.reduce offset (rw.diff span) fn s).map fun r => ({ rw with win := r.1 }, r.2)
    else some (rw, s)

end RollingWindow

/-! ## Observers used to state the properties -/

/-- The visitor that records, in call order, the slot and the contents of every bucket it is
invoked on and writes nothing. -/
def recorder : Visitor (List (Int × Bucket)) :=
  fun idx b log => (b, log ++ [(idx, b)])

/-- A visitor that never writes to the bucket it is handed. -/
def Visitor.ReadOnly {σ : Type} (fn : Visitor σ) : Prop :=
  ∀ idx b s, (fn idx b s).1 = b

/-- The empty bucket. -/
def Bucket.zero : Bucket := { sum := 0, count := 0 }

/-- The contents of the slot at an integer index, the empty bucket outside the window. -/
def window.peek (w : window) (i : Int) : Bucket :=
  (w.bucketAt i).getD Bucket.zero

/-- The shape of a constructed rolling window: at least one bucket, the write position inside
the window, and a window that holds exactly `size` buckets. -/
structure RollingWindow.Shaped (rw : RollingWindow) : Prop where
  size_pos : 1 ≤ rw.size
  offset_nonneg : 0 ≤ rw.offset
  offset_lt : rw.offset < rw.size
  win_size : rw.win.size = rw.size

/-- The configuration and representation invariant of a constructed rolling window: at least one
bucket, a positive interval, the write position inside the window, and a window that holds
exactly `size` buckets. -/
structure RollingWindow.Valid (rw : RollingWindow) : Prop where
  size_pos : 1 ≤ rw.size
  interval_pos : 0 < rw.interval
  offset_nonneg : 0 ≤ rw.offset
  offset_lt : rw.offset < rw.size
  win_size : rw.win.size = rw.size

/-- One call of the public API together with the clock readings it takes: `Add` reads the clock
in `span()` and again on line 95, `Reduce` reads it once. -/
inductive Op where
  | add (v : ℚ) (t1 t2 : Int)
  | reduce (now : Int)

/-- Perform one call; every `Reduce` runs the visitor `fn`, whose state is threaded through. -/
def step {σ : Type} (fn : Visitor σ) (st : RollingWindow × σ) : Op → Option (RollingWindow × σ)
  | Op.add v t1 t2 => (st.1.Add v t1 t2).map fun rw => (rw, st.2)
  | Op.reduce now => st.1.Reduce fn now st.2

/-- The states reached after each call of a sequence of calls, in order. -/
def runTrace {σ : Type} (fn : Visitor σ) :
    RollingWindow × σ → List Op → Option (List (RollingWindow × σ))
  | _, [] => some []
  | st, op :: ops =>
    (step fn st op).bind fun st1 => (runTrace fn st1 ops).map fun rest => st1 :: rest

/-- The window of the scenario of section 8 at construction: three empty buckets, an interval of
one second (in nanoseconds), clock at 0. -/
def scenarioInit : RollingWindow :=
  { size := 3, win := { buckets := [Bucket.zero, Bucket.zero, Bucket.zero] },
    interval := 1000000000, offset := 0, ignoreCurrent := false, lastTime := 0 }

/-- The window of the scenario after `Add(1)` at `t = 0` and `Add(2)` at `t = 1.2s`. -/
def scenarioState : RollingWindow :=
  { size := 3,
    win := { buckets := [{ sum := 1, count := 1 }, { sum := 2, count := 1 }, Bucket.zero] },
    interval := 1000000000, offset := 1, ignoreCurrent := false, lastTime := 1000000000 }

/-- A fresh window of five buckets with an interval of one time unit and the given read policy,
constructed at clock reading 0. -/
def fiveBuckets (ignoreCurrent : Bool) : RollingWindow :=
  { size := 5,
    win := { buckets := [Bucket.zero, Bucket.zero, Bucket.zero, Bucket.zero, Bucket.zero] },
    interval := 1, offset := 0, ignoreCurrent := ignoreCurrent, lastTime := 0 }

/-- The window `fiveBuckets` after one `Add(1)` at clock reading 0. -/
def fiveBucketsWritten (ignoreCurrent : Bool) : RollingWindow :=
  { size := 5,
    win := { buckets :=
      [{ sum := 1, count := 1 }, Bucket.zero, Bucket.zero, Bucket.zero, Bucket.zero] },
    interval := 1, offset := 0, ignoreCurrent := ignoreCurrent, lastTime := 0 }

/-- A window of three buckets that all hold data, with an interval of one second, last written at
clock reading 0 into slot 1. -/
def idleState : RollingWindow :=
  { size := 3,
    win := { buckets :=
      [{ sum := 4, count := 2 }, { sum := 7, count := 1 }, { sum := 5, count := 3 }] },
    interval := 1000000000, offset := 1, ignoreCurrent := false, lastTime := 0 }

/-! ## Event histories -/

/-- A sequence of `Add(v)` calls, each event being the value and the single clock reading the
call takes. -/
def addAll (rw : RollingWindow) : List (ℚ × Int) → Option RollingWindow
  | [] => some rw
  | e :: es => (rw.Add e.1 e.2 e.2).bind fun rw1 => addAll rw1 es

/-- The number of whole intervals between the origin `t0` and the reading `t`:
`floor((t - t0) / interval)`. -/
def intervalOf (t0 interval t : Int) : Int := (t - t0) / interval

/-- The events of a history that fall into interval number `m`. -/
def eventsAt (t0 interval : Int) (es : List (ℚ × Int)) (m : Int) : List (ℚ × Int) :=
  es.filter fun e => decide (intervalOf t0 interval e.2 = m)

/-- The bucket that aggregates the events of interval number `m`. -/
def bucketOf (t0 interval : Int) (es : List (ℚ × Int)) (m : Int) : Bucket :=
  { sum := ((eventsAt t0 interval es m).map Prod.fst).sum
    count := ((eventsAt t0 interval es m).length : Int) }

/-- The representation invariant that ties a window to the history `es` of the values added to it
since its origin `t0`, `tp` being the latest clock reading: `lastTime` is the start of the
interval containing `tp`, and the slot `a` positions behind `offset` holds the aggregate of the
interval `a` intervals before that of `tp`. -/
structure History (t0 : Int) (rw : RollingWindow) (es : List (ℚ × Int)) (tp : Int) : Prop where
  valid : rw.Valid
  origin_le : t0 ≤ tp
  lastTime_eq : rw.lastTime = t0 + intervalOf t0 rw.interval tp * rw.interval
  seen : ∀ e ∈ es, intervalOf t0 rw.interval e.2 ≤ intervalOf t0 rw.interval tp
  slots : ∀ a : Int, 0 ≤ a → a < rw.size →
    rw.win.bucketAt ((rw.offset - a) % rw.size)
      = some (bucketOf t0 rw.interval es (intervalOf t0 rw.interval tp - a))

/-- Three empty buckets, an interval of one time unit, written last at clock reading 0. -/
def c3State : RollingWindow :=
  { size := 3, win := { buckets := [Bucket.zero, Bucket.zero, Bucket.zero] }, interval := 1,
    offset := 0, ignoreCurrent := false, lastTime := 0 }

/-- The reference definition of `span` written out in section 4.3 of the specification:
`elapsed = now - lastTime`, `offset_delta = floor(elapsed / interval)`, and the result is
`offset_delta` if `0 <= offset_delta < size` and `size` otherwise. -/
def spanRef (size interval lastTime now : Int) : Int :=
  let elapsed := now - lastTime
  let offset_delta := Int.fdiv elapsed interval
  if 0 ≤ offset_delta ∧ offset_delta < size then offset_delta else size

/-- Three empty buckets, an interval of ten time units, written last at clock reading 5. -/
def tenUnitState : RollingWindow :=
  { size := 3, win := { buckets := [Bucket.zero, Bucket.zero, Bucket.zero] }, interval := 10,
    offset := 0, ignoreCurrent := false, lastTime := 5 }



/-! ## Integer operators -/

theorem goMod_of_nonneg {a b : Int} (ha : 0 ≤ a) (hb : 0 < b) : goMod a b = some (a % b) := by
  unfold goMod
  rw [if_neg (by omega), Int.tmod_eq_emod ha (by omega)]

theorem goDiv_of_nonneg {a b : Int} (ha : 0 ≤ a) (hb : 0 < b) : goDiv a b = some (a / b) := by
  unfold goDiv
  rw [if_neg (by omega), Int.tdiv_eq_ediv ha (by omega)]

theorem goDiv_of_pos {a b : Int} (hb : 0 < b) : goDiv a b = some (a.tdiv b) := by
  unfold goDiv
  rw [if_neg (by omega)]

/-! ## Window storage -/

theorem window.size_store (w : window) (i : Int) (b : Bucket) : (w.store i b).size = w.size := by
  simp [window.store, window.size]

theorem window.bucketAt_store_self (w : window) {i : Int} (b : Bucket)
    (h0 : 0 ≤ i) (h1 : i < w.size) : (w.store i b).bucketAt i = some b := by
  unfold window.bucketAt
  rw [window.size_store, if_pos ⟨h0, h1⟩]
  have : i.toNat < w.buckets.length := by unfold window.size at h1; omega
  simp [window.store, List.getElem?_set, this]

theorem window.bucketAt_store_ne (w : window) {i j : Int} (b : Bucket)
    (h0 : 0 ≤ i) (hj : 0 ≤ j) (hne : i ≠ j) : (w.store i b).bucketAt j = w.bucketAt j := by
  unfold window.bucketAt
  rw [window.size_store]
  have : i.toNat ≠ j.toNat := by omega
  simp [window.store, List.getElem?_set_ne this]

theorem window.bucketAt_isSome (w : window) {i : Int} (h0 : 0 ≤ i) (h1 : i < w.size) :
    ∃ b, w.bucketAt i = some b := by
  unfold window.bucketAt
  rw [if_pos ⟨h0, h1⟩]
  have : i.toNat < w.buckets.length := by unfold window.size at h1; omega
  exact ⟨w.buckets[i.toNat], List.getElem?_eq_getElem this⟩

theorem window.bucketAt_range (w : window) {i : Int} {b : Bucket} (h : w.bucketAt i = some b) :
    0 ≤ i ∧ i < w.size := by
  unfold window.bucketAt at h
  by_contra hc
  rw [if_neg hc] at h
  cases h

theorem window.store_bucketAt (w : window) {i : Int} {b : Bucket} (h : w.bucketAt i = some b) :
    w.store i b = w := by
  have hr := w.bucketAt_range h
  unfold window.bucketAt at h
  rw [if_pos hr] at h
  cases w with
  | mk bs =>
    simp only [window.store, window.mk.injEq]
    apply List.ext_getElem?
    intro n
    rw [List.getElem?_set]
    split
    · next hn =>
      subst hn
      split
      · exact h.symm
      · next hlt => simp at hlt; simp [hlt]
    · rfl

theorem window.ext_bucketAt {w w' : window} (hs : w'.size = w.size)
    (h : ∀ i, 0 ≤ i → i < w.size → w'.bucketAt i = w.bucketAt i) : w' = w := by
  cases w with
  | mk bs =>
  cases w' with
  | mk bs' =>
    simp only [window.mk.injEq]
    simp only [window.size] at hs
    have hlen : bs'.length = bs.length := by exact_mod_cast hs
    apply List.ext_getElem hlen
    intro n h1 h2
    have := h n (by omega) (by simp [window.size]; omega)
    simp only [window.bucketAt, window.size] at this
    rw [if_pos (by omega), if_pos (by omega)] at this
    simpa [List.getElem?_eq_getElem h1, List.getElem?_eq_getElem h2] using this


/-! ## span -/

theorem RollingWindow.span_eq (rw : RollingWindow) (now : Int) (hi : 0 < rw.interval) :
    rw.span now = some (if 0 ≤ (now - rw.lastTime).tdiv rw.interval ∧
      (now - rw.lastTime).tdiv rw.interval < rw.size
      then (now - rw.lastTime).tdiv rw.interval else rw.size) := by
  simp [RollingWindow.span, timex.Since, goDiv_of_pos hi]

theorem RollingWindow.span_bounds (rw : RollingWindow) {now s : Int} (hs : 0 ≤ rw.size)
    (h : rw.span now = some s) : 0 ≤ s ∧ s ≤ rw.size := by
  unfold RollingWindow.span at h
  cases hq : goDiv (timex.Since now rw.lastTime) rw.interval with
  | none => rw [hq] at h; cases h
  | some q =>
    rw [hq] at h
    simp only [Option.map_some', Option.some.injEq] at h
    split at h <;> omega

/-! ## The reset loop -/

theorem window.resetBucket_eq (w : window) {i : Int} (h0 : 0 ≤ i) (h1 : i < w.size) :
    w.resetBucket i = some (w.store i Bucket.zero) := by
  obtain ⟨b, hb⟩ := w.bucketAt_isSome h0 h1
  simp [window.resetBucket, hb, Bucket.reset, Bucket.zero]

theorem RollingWindow.resetExpired_spec (rw : RollingWindow) (hsz : 0 < rw.size)
    (hw : rw.win.size = rw.size) (off : Int) (h0 : 0 ≤ off) (n : Nat) :
    ∃ w, rw.resetExpired off n = some w ∧ w.size = rw.size ∧
      (∀ j, (∃ k : Int, 1 ≤ k ∧ k ≤ n ∧ (off + k) % rw.size = j) →
        w.bucketAt j = some Bucket.zero) ∧
      (∀ j, (∀ k : Int, 1 ≤ k → k ≤ n → (off + k) % rw.size ≠ j) →
        w.bucketAt j = rw.win.bucketAt j) := by
  unfold RollingWindow.resetExpired
  simp only [Int.toNat_ofNat]
  induction n with
  | zero =>
    refine ⟨rw.win, by simp, hw, ?_, ?_⟩
    · rintro j ⟨k, h1, h2, -⟩
      simp at h2
      omega
    · intro j _
      rfl
  | succ n ih =>
    obtain ⟨w, hrun, hsize, hz, hk⟩ := ih
    have hidx0 : 0 ≤ (off + (n : Int) + 1) % rw.size := Int.emod_nonneg _ (by omega)
    have hidx1 : (off + (n : Int) + 1) % rw.size < rw.size := Int.emod_lt_of_pos _ hsz
    refine ⟨w.store ((off + (n : Int) + 1) % rw.size) Bucket.zero, ?_, ?_, ?_, ?_⟩
    · rw [List.range_succ, List.foldlM_append, hrun]
      simp only [Option.bind_eq_bind, Option.some_bind, List.foldlM_cons, List.foldlM_nil]
      rw [goMod_of_nonneg (by omega) hsz]
      simp only [Option.some_bind]
      rw [window.resetBucket_eq _ hidx0 (by omega)]
      rfl
    · rw [window.size_store, hsize]
    · rintro j ⟨k, h1, h2, h3⟩
      by_cases hkn : k ≤ n
      · by_cases hj : (off + (n : Int) + 1) % rw.size = j
        · subst hj
          exact window.bucketAt_store_self _ _ hidx0 (by omega)
        · rw [window.bucketAt_store_ne _ _ hidx0 (by rw [← h3]; exact Int.emod_nonneg _ (by omega)) hj]
          exact hz j ⟨k, h1, hkn, h3⟩
      · have : k = n + 1 := by push_cast at h2; omega
        subst this
        rw [← h3, ← add_assoc]
        exact window.bucketAt_store_self _ _ hidx0 (by omega)
    · intro j hj
      have hne : (off + (n : Int) + 1) % rw.size ≠ j := by
        have := hj (n + 1) (by omega) (by push_cast; omega)
        rwa [← add_assoc] at this
      by_cases hj0 : 0 ≤ j
      · rw [window.bucketAt_store_ne _ _ hidx0 hj0 hne]
        exact hk j (fun k h1 h2 => hj k h1 (by push_cast; omega))
      · have e1 : ∀ w : window, w.bucketAt j = none := by
          intro w
          unfold window.bucketAt
          rw [if_neg (by omega)]
        rw [e1, e1]


/-! ## Circular index arithmetic -/

theorem mod_add_inj {m a i i' : Int} (hi0 : 0 ≤ i) (hi1 : i < m)
    (hj0 : 0 ≤ i') (hj1 : i' < m) (h : (a + i) % m = (a + i') % m) : i = i' := by
  have hd : m ∣ (a + i) - (a + i') := Int.ModEq.dvd (a := a + i') (b := a + i) h.symm
  have hd' : m ∣ i - i' := by
    have e : (a + i) - (a + i') = i - i' := by ring
    rwa [e] at hd
  have hz : i - i' = 0 := by
    apply Int.eq_zero_of_abs_lt_dvd hd'
    rw [abs_lt]
    constructor <;> omega
  omega

theorem mod_slot {m a j : Int} (hj0 : 0 ≤ j) (hj1 : j < m) :
    (a + (j - a) % m) % m = j := by
  rw [Int.add_emod_emod]
  have e : a + (j - a) = j := by ring
  rw [e]
  exact Int.emod_eq_of_lt hj0 hj1


theorem window.bucketAt_eq_peek (w : window) {i : Int} (h0 : 0 ≤ i) (h1 : i < w.size) :
    w.bucketAt i = some (w.peek i) := by
  obtain ⟨b, hb⟩ := w.bucketAt_isSome h0 h1
  simp [window.peek, hb]

/-! ## The visitor loop -/

theorem window.size_visit {σ : Type} (fn : Visitor σ) {ws r : window × σ} {idx : Int}
    (h : window.visit fn ws idx = some r) : r.1.size = ws.1.size := by
  unfold window.visit at h
  cases hb : ws.1.bucketAt idx with
  | none => rw [hb] at h; cases h
  | some b =>
    rw [hb] at h
    simp only [Option.map_some', Option.some.injEq] at h
    rw [← h, window.size_store]

theorem window.visit_readOnly {σ : Type} {fn : Visitor σ} (hfn : fn.ReadOnly) (w : window)
    (s : σ) {idx : Int} (h0 : 0 ≤ idx) (h1 : idx < w.size) :
    window.visit fn (w, s) idx = some (w, (fn idx (w.peek idx) s).2) := by
  unfold window.visit
  rw [w.bucketAt_eq_peek h0 h1]
  simp only [Option.map_some', hfn idx (w.peek idx) s]
  rw [w.store_bucketAt (w.bucketAt_eq_peek h0 h1)]

theorem window.reduce_total {σ : Type} (w : window) (start count : Int) (fn : Visitor σ) (s : σ)
    (hsz : 0 < w.size) (hs : 0 ≤ start) (hc0 : 0 ≤ count) (hc1 : count ≤ w.size) :
    ∃ r, w.reduce start count fn s = some r ∧ r.1.size = w.size := by
  unfold window.reduce
  rw [if_pos ⟨hc0, hc1⟩]
  generalize count.toNat = n
  induction n with
  | zero => exact ⟨(w, s), by simp, rfl⟩
  | succ n ih =>
    obtain ⟨r, hr, hrs⟩ := ih
    have hidx0 : 0 ≤ (start + (n : Int)) % w.size := Int.emod_nonneg _ (by omega)
    have hidx1 : (start + (n : Int)) % w.size < w.size := Int.emod_lt_of_pos _ hsz
    obtain ⟨b, hb⟩ := r.1.bucketAt_isSome hidx0 (by omega)
    refine ⟨((r.1.store ((start + (n : Int)) % w.size)
      (fn ((start + (n : Int)) % w.size) b r.2).1), (fn ((start + (n : Int)) % w.size) b r.2).2),
      ?_, ?_⟩
    · rw [List.range_succ, List.foldlM_append, hr]
      simp only [Option.bind_eq_bind, Option.some_bind, List.foldlM_cons, List.foldlM_nil]
      rw [goMod_of_nonneg (by omega) hsz]
      simp [window.visit, hb]
    · rw [window.size_store, hrs]

theorem window.reduce_readOnly {σ : Type} (w : window) (start count : Int) {fn : Visitor σ}
    (hfn : fn.ReadOnly) (s : σ)
    (hsz : 0 < w.size) (hs : 0 ≤ start) (hc0 : 0 ≤ count) (hc1 : count ≤ w.size) :
    w.reduce start count fn s = some (w, (List.range count.toNat).foldl
      (fun acc (i : Nat) =>
        (fn ((start + (i : Int)) % w.size) (w.peek ((start + (i : Int)) % w.size)) acc).2) s) := by
  unfold window.reduce
  rw [if_pos ⟨hc0, hc1⟩]
  generalize count.toNat = n
  induction n with
  | zero => simp
  | succ n ih =>
    have hidx0 : 0 ≤ (start + (n : Int)) % w.size := Int.emod_nonneg _ (by omega)
    have hidx1 : (start + (n : Int)) % w.size < w.size := Int.emod_lt_of_pos _ hsz
    rw [List.range_succ, List.foldlM_append, ih]
    simp only [Option.bind_eq_bind, Option.some_bind, List.foldlM_cons, List.foldlM_nil]
    rw [goMod_of_nonneg (by omega) hsz]
    simp only [Option.some_bind]
    rw [window.visit_readOnly hfn _ _ hidx0 hidx1]
    simp [List.foldl_append]

theorem recorder_readOnly : Visitor.ReadOnly recorder := by
  intro idx b s
  rfl

theorem foldl_recorder (g : Nat → Int × Bucket) (n : Nat) (log : List (Int × Bucket)) :
    (List.range n).foldl (fun acc (i : Nat) => acc ++ [g i]) log
      = log ++ (List.range n).map g := by
  induction n with
  | zero => simp
  | succ n ih => simp [List.range_succ, List.foldl_append, ih]

theorem window.reduce_recorder (w : window) (start count : Int) (log : List (Int × Bucket))
    (hsz : 0 < w.size) (hs : 0 ≤ start) (hc0 : 0 ≤ count) (hc1 : count ≤ w.size) :
    w.reduce start count recorder log = some (w, log ++ (List.range count.toNat).map
      (fun (i : Nat) => ((start + (i : Int)) % w.size, w.peek ((start + (i : Int)) % w.size)))) := by
  rw [w.reduce_readOnly start count recorder_readOnly log hsz hs hc0 hc1]
  simp only [recorder]
  rw [foldl_recorder]


/-! ## Reduce -/

theorem RollingWindow.diff_le (rw : RollingWindow) {sp : Int} (h0 : 0 ≤ sp) :
    rw.diff sp ≤ rw.size := by
  unfold RollingWindow.diff
  split <;> omega

theorem RollingWindow.Reduce_total {σ : Type} (rw : RollingWindow) (hv : rw.Valid)
    (fn : Visitor σ) (now : Int) (s : σ) :
    ∃ w s', rw.Reduce fn now s = some ({ rw with win := w }, s') ∧ w.size = rw.size := by
  obtain ⟨sp, hsp⟩ : ∃ sp, rw.span now = some sp := ⟨_, rw.span_eq now hv.interval_pos⟩
  obtain ⟨h0, h1⟩ := rw.span_bounds (by have := hv.size_pos; omega) hsp
  unfold RollingWindow.Reduce
  rw [hsp]
  simp only [Option.some_bind]
  split
  · next hd =>
    rw [goMod_of_nonneg (by have := hv.offset_nonneg; omega) (by have := hv.size_pos; omega)]
    simp only [Option.some_bind]
    obtain ⟨r, hr, hrs⟩ := rw.win.reduce_total ((rw.offset + sp + 1) % rw.size) (rw.diff sp) fn s
      (by rw [hv.win_size]; have := hv.size_pos; omega)
      (Int.emod_nonneg _ (by have := hv.size_pos; omega)) (by omega)
      (by rw [hv.win_size]; exact rw.diff_le h0)
    rw [hr]
    exact ⟨r.1, r.2, rfl, by rw [hrs, hv.win_size]⟩
  · exact ⟨rw.win, s, rfl, hv.win_size⟩

theorem RollingWindow.Valid.shaped {rw : RollingWindow} (hv : rw.Valid) : rw.Shaped :=
  ⟨hv.size_pos, hv.offset_nonneg, hv.offset_lt, hv.win_size⟩

theorem RollingWindow.Reduce_readOnly {σ : Type} (rw : RollingWindow) (hv : rw.Shaped)
    {fn : Visitor σ} (hfn : fn.ReadOnly) {now sp : Int} (hsp : rw.span now = some sp) (s : σ) :
    rw.Reduce fn now s = some (rw, (List.range (rw.diff sp).toNat).foldl
      (fun acc (i : Nat) =>
        (fn ((rw.offset + sp + 1 + (i : Int)) % rw.size)
          (rw.win.peek ((rw.offset + sp + 1 + (i : Int)) % rw.size)) acc).2) s) := by
  obtain ⟨h0, h1⟩ := rw.span_bounds (by have := hv.size_pos; omega) hsp
  have hsz : 0 < rw.size := by have := hv.size_pos; omega
  unfold RollingWindow.Reduce
  rw [hsp]
  simp only [Option.some_bind]
  split
  · next hd =>
    rw [goMod_of_nonneg (by have := hv.offset_nonneg; omega) hsz]
    simp only [Option.some_bind]
    rw [rw.win.reduce_readOnly _ _ hfn s (by rw [hv.win_size]; exact hsz)
      (Int.emod_nonneg _ (by omega)) (by omega) (by rw [hv.win_size]; exact rw.diff_le h0)]
    simp only [Option.map_some', hv.win_size, Int.emod_add_emod]
  · next hd =>
    have : (rw.diff sp).toNat = 0 := by omega
    rw [this]
    simp

theorem RollingWindow.Reduce_recorder (rw : RollingWindow) (hv : rw.Shaped)
    {now sp : Int} (hsp : rw.span now = some sp) (log : List (Int × Bucket)) :
    rw.Reduce recorder now log = some (rw, log ++ (List.range (rw.diff sp).toNat).map
      (fun (i : Nat) => ((rw.offset + sp + 1 + (i : Int)) % rw.size,
          rw.win.peek ((rw.offset + sp + 1 + (i : Int)) % rw.size)))) := by
  rw [rw.Reduce_readOnly hv recorder_readOnly hsp log]
  simp only [recorder]
  rw [foldl_recorder]


/-! ## updateOffset and Add -/

theorem RollingWindow.resetExpired_slots (rw : RollingWindow) (hv : rw.Valid) {sp : Int}
    (h0 : 0 ≤ sp) :
    ∃ w, rw.resetExpired rw.offset sp = some w ∧ w.size = rw.size ∧
      ∀ j, 0 ≤ j → j < rw.size → w.bucketAt j =
        if (j - rw.offset - 1) % rw.size < sp then some Bucket.zero else rw.win.bucketAt j := by
  have hsz : 0 < rw.size := by have := hv.size_pos; omega
  obtain ⟨w, hw, hs, hz, hk⟩ :=
    rw.resetExpired_spec hsz hv.win_size rw.offset hv.offset_nonneg sp.toNat
  have hcast : ((sp.toNat : Nat) : Int) = sp := by omega
  rw [hcast] at hw hz hk
  refine ⟨w, hw, hs, ?_⟩
  intro j hj0 hj1
  have hm0 : 0 ≤ (j - rw.offset - 1) % rw.size := Int.emod_nonneg _ (by omega)
  have hm1 : (j - rw.offset - 1) % rw.size < rw.size := Int.emod_lt_of_pos _ hsz
  have hslot : (rw.offset + 1 + (j - rw.offset - 1) % rw.size) % rw.size = j := by
    have := mod_slot (m := rw.size) (a := rw.offset + 1) hj0 hj1
    have e : j - (rw.offset + 1) = j - rw.offset - 1 := by ring
    rwa [e] at this
  split
  · next hlt =>
    apply hz
    refine ⟨(j - rw.offset - 1) % rw.size + 1, by omega, by omega, ?_⟩
    have e : rw.offset + ((j - rw.offset - 1) % rw.size + 1)
        = rw.offset + 1 + (j - rw.offset - 1) % rw.size := by ring
    rw [e]
    exact hslot
  · next hge =>
    apply hk
    intro k hk1 hk2 heq
    apply hge
    have e : rw.offset + k = rw.offset + 1 + (k - 1) := by ring
    rw [e] at heq
    have := mod_add_inj (by omega) (by omega) hm0 hm1 (heq.trans hslot.symm)
    omega

theorem RollingWindow.updateOffset_spec (rw : RollingWindow) (hv : rw.Valid) {t1 sp : Int}
    (hsp : rw.span t1 = some sp) (t2 : Int) :
    ∃ w, rw.updateOffset t1 t2 = some { rw with
        win := w
        offset := (rw.offset + sp) % rw.size
        lastTime := if sp = 0 then rw.lastTime else t2 - (t2 - rw.lastTime).tmod rw.interval } ∧
      w.size = rw.size ∧
      ∀ j, 0 ≤ j → j < rw.size → w.bucketAt j =
        if (j - rw.offset - 1) % rw.size < sp then some Bucket.zero else rw.win.bucketAt j := by
  have hsz : 0 < rw.size := by have := hv.size_pos; omega
  obtain ⟨h0, h1⟩ := rw.span_bounds (by omega) hsp
  unfold RollingWindow.updateOffset
  rw [hsp]
  simp only [Option.some_bind]
  by_cases hz : sp = 0
  · subst hz
    refine ⟨rw.win, ?_, hv.win_size, ?_⟩
    · simp [Int.emod_eq_of_lt hv.offset_nonneg hv.offset_lt]
    · intro j hj0 hj1
      rw [if_neg]
      have := Int.emod_nonneg (j - rw.offset - 1) (b := rw.size) (by omega)
      omega
  · obtain ⟨w, hw, hs, hb⟩ := rw.resetExpired_slots hv h0
    refine ⟨w, ?_, hs, hb⟩
    rw [if_neg (by omega), hw]
    simp only [Option.some_bind]
    rw [goMod_of_nonneg (by have := hv.offset_nonneg; omega) hsz]
    simp only [Option.some_bind]
    have : goMod (t2 - rw.lastTime) rw.interval = some ((t2 - rw.lastTime).tmod rw.interval) := by
      unfold goMod
      rw [if_neg (by have := hv.interval_pos; omega)]
    rw [this]
    simp [hz]

theorem RollingWindow.Add_spec (rw : RollingWindow) (hv : rw.Valid) (v : ℚ) {t1 sp : Int}
    (hsp : rw.span t1 = some sp) (t2 : Int) :
    ∃ w, rw.Add v t1 t2 = some { rw with
        win := w
        offset := (rw.offset + sp) % rw.size
        lastTime := if sp = 0 then rw.lastTime else t2 - (t2 - rw.lastTime).tmod rw.interval } ∧
      w.size = rw.size ∧
      ∀ j, 0 ≤ j → j < rw.size → w.bucketAt j = some
        (if j = (rw.offset + sp) % rw.size
         then (if (j - rw.offset - 1) % rw.size < sp then Bucket.zero else rw.win.peek j).add v
         else (if (j - rw.offset - 1) % rw.size < sp then Bucket.zero else rw.win.peek j)) := by
  have hsz : 0 < rw.size := by have := hv.size_pos; omega
  obtain ⟨w, hw, hs, hb⟩ := rw.updateOffset_spec hv hsp t2
  have ho0 : 0 ≤ (rw.offset + sp) % rw.size := Int.emod_nonneg _ (by omega)
  have ho1 : (rw.offset + sp) % rw.size < rw.size := Int.emod_lt_of_pos _ hsz
  have hcur := w.bucketAt_eq_peek ho0 (by omega)
  refine ⟨w.store ((rw.offset + sp) % rw.size) ((w.peek ((rw.offset + sp) % rw.size)).add v),
    ?_, ?_, ?_⟩
  · unfold RollingWindow.Add
    rw [hw]
    simp [window.add, hcur]
  · rw [window.size_store, hs]
  · intro j hj0 hj1
    have hold : w.peek j =
        if (j - rw.offset - 1) % rw.size < sp then Bucket.zero else rw.win.peek j := by
      have := hb j hj0 hj1
      unfold window.peek
      rw [this]
      split
      · rfl
      · rfl
    by_cases hj : j = (rw.offset + sp) % rw.size
    · rw [if_pos hj, ← hold, hj]
      exact window.bucketAt_store_self _ _ ho0 (by omega)
    · rw [if_neg hj, ← hold, window.bucketAt_store_ne _ _ ho0 hj0 (Ne.symm hj)]
      exact w.bucketAt_eq_peek hj0 (by omega)

theorem RollingWindow.Add_valid (rw : RollingWindow) (hv : rw.Valid) (v : ℚ) (t1 t2 : Int) :
    ∃ rw1, rw.Add v t1 t2 = some rw1 ∧ rw1.Valid ∧ rw1.size = rw.size ∧
      rw1.interval = rw.interval ∧ rw1.ignoreCurrent = rw.ignoreCurrent := by
  have hsz : 0 < rw.size := by have := hv.size_pos; omega
  obtain ⟨sp, hsp⟩ : ∃ sp, rw.span t1 = some sp := ⟨_, rw.span_eq t1 hv.interval_pos⟩
  obtain ⟨w, hw, hs, -⟩ := rw.Add_spec hv v hsp t2
  exact ⟨_, hw, ⟨hv.size_pos, hv.interval_pos, Int.emod_nonneg _ (by omega),
    Int.emod_lt_of_pos _ hsz, hs⟩, rfl, rfl, rfl⟩

/-! ## The slots a read visits -/

theorem slots_nodup {m : Int} (a : Int) (n : Nat) (hn : (n : Int) ≤ m) :
    ((List.range n).map (fun (i : Nat) => (a + (i : Int)) % m)).Nodup := by
  apply List.Nodup.map_on _ (List.nodup_range n)
  intro x hx y hy hxy
  rw [List.mem_range] at hx hy
  have := @mod_add_inj m a (x : Int) (y : Int) (by omega) (by omega) (by omega)
    (by omega) hxy
  omega

theorem slots_cover {m : Int} (a : Int) {j : Int} (hj0 : 0 ≤ j) (hj1 : j < m) :
    j ∈ (List.range m.toNat).map (fun (i : Nat) => (a + (i : Int)) % m) := by
  rw [List.mem_map]
  have h0 : 0 ≤ (j - a) % m := Int.emod_nonneg _ (by omega)
  have h1 : (j - a) % m < m := Int.emod_lt_of_pos _ (by omega)
  refine ⟨((j - a) % m).toNat, by rw [List.mem_range]; omega, ?_⟩
  have e : (((j - a) % m).toNat : Int) = (j - a) % m := by omega
  rw [e]
  exact mod_slot hj0 hj1

theorem RollingWindow.diff_pos_span_lt (rw : RollingWindow) {sp : Int} (hd : 0 < rw.diff sp) :
    sp < rw.size := by
  unfold RollingWindow.diff at hd
  split at hd <;> omega

theorem RollingWindow.Reduce_visits (rw : RollingWindow) (hv : rw.Shaped) {now sp : Int}
    (hsp : rw.span now = some sp) :
    ∃ log, rw.Reduce recorder now [] = some (rw, log) ∧
      log = (List.range (rw.diff sp).toNat).map (fun (i : Nat) =>
        ((rw.offset + sp + 1 + (i : Int)) % rw.size,
          rw.win.peek ((rw.offset + sp + 1 + (i : Int)) % rw.size))) ∧
      log.map Prod.fst = (List.range (rw.diff sp).toNat).map (fun (i : Nat) =>
        (rw.offset + sp + 1 + (i : Int)) % rw.size) ∧
      (∀ e ∈ log, rw.win.bucketAt e.1 = some e.2) ∧
      (log.map Prod.fst).Nodup ∧
      (∀ k : Int, 1 ≤ k → k ≤ sp → (rw.offset + k) % rw.size ∉ log.map Prod.fst) := by
  have hsz : 0 < rw.size := by have := hv.size_pos; omega
  obtain ⟨h0, h1⟩ := rw.span_bounds (by omega) hsp
  have hdle := rw.diff_le h0
  have hfst : ((List.range (rw.diff sp).toNat).map (fun (i : Nat) =>
        ((rw.offset + sp + 1 + (i : Int)) % rw.size,
          rw.win.peek ((rw.offset + sp + 1 + (i : Int)) % rw.size)))).map Prod.fst
      = (List.range (rw.diff sp).toNat).map (fun (i : Nat) =>
        (rw.offset + sp + 1 + (i : Int)) % rw.size) := by
    rw [List.map_map]
    rfl
  refine ⟨_, by simpa using rw.Reduce_recorder hv hsp [], rfl, hfst, ?_, ?_, ?_⟩
  · intro e he
    rw [List.mem_map] at he
    obtain ⟨i, -, rfl⟩ := he
    exact rw.win.bucketAt_eq_peek (Int.emod_nonneg _ (by omega))
      (by rw [hv.win_size]; exact Int.emod_lt_of_pos _ hsz)
  · rw [hfst]
    exact slots_nodup _ _ (by omega)
  · intro k hk1 hk2 hmem
    rw [hfst, List.mem_map] at hmem
    obtain ⟨i, hi, heq⟩ := hmem
    rw [List.mem_range] at hi
    have hdlt : rw.diff sp ≤ rw.size - sp := by
      unfold RollingWindow.diff
      split <;> omega
    have e1 : rw.offset + sp + 1 + (i : Int) = rw.offset + 1 + (sp + (i : Int)) := by ring
    have e2 : rw.offset + k = rw.offset + 1 + (k - 1) := by ring
    rw [e1, e2] at heq
    have := mod_add_inj (by omega) (by omega) (by omega) (by omega) heq
    omega

theorem RollingWindow.Reduce_visits_last (rw : RollingWindow) (hv : rw.Shaped) {sp : Int}
    (hd : 0 < rw.diff sp) (hcur : ¬ (sp = 0 ∧ rw.ignoreCurrent = true)) :
    ((List.range (rw.diff sp).toNat).map (fun (i : Nat) =>
        ((rw.offset + sp + 1 + (i : Int)) % rw.size,
          rw.win.peek ((rw.offset + sp + 1 + (i : Int)) % rw.size)))).getLast?
      = some (rw.offset, rw.win.peek rw.offset) := by
  have hdeq : rw.diff sp = rw.size - sp := by
    unfold RollingWindow.diff
    rw [if_neg hcur]
  obtain ⟨n, hn⟩ : ∃ n : Nat, (rw.diff sp).toNat = n + 1 := ⟨(rw.diff sp).toNat - 1, by omega⟩
  rw [hn, List.range_succ, List.map_append, List.map_singleton, List.getLast?_concat]
  have e : rw.offset + sp + 1 + (n : Int) = rw.offset + rw.size := by omega
  rw [e, Int.add_emod_self, Int.emod_eq_of_lt hv.offset_nonneg hv.offset_lt]

theorem RollingWindow.span_same_interval (rw : RollingWindow) (hs : 1 ≤ rw.size) {now : Int}
    (h0 : 0 ≤ now - rw.lastTime) (h1 : now - rw.lastTime < rw.interval) :
    rw.span now = some 0 := by
  rw [rw.span_eq now (by omega), Int.tdiv_eq_zero_of_lt h0 h1]
  rw [if_pos ⟨le_refl _, by omega⟩]

/-! ## Aggregates of a history -/

theorem bucketOf_append_same (t0 iv : Int) (es : List (ℚ × Int)) (e : ℚ × Int) {m : Int}
    (h : intervalOf t0 iv e.2 = m) :
    bucketOf t0 iv (es ++ [e]) m = (bucketOf t0 iv es m).add e.1 := by
  simp [bucketOf, eventsAt, List.filter_append, h, Bucket.add]

theorem bucketOf_append_other (t0 iv : Int) (es : List (ℚ × Int)) (e : ℚ × Int) {m : Int}
    (h : intervalOf t0 iv e.2 ≠ m) :
    bucketOf t0 iv (es ++ [e]) m = bucketOf t0 iv es m := by
  simp [bucketOf, eventsAt, List.filter_append, h]

theorem bucketOf_empty (t0 iv : Int) (es : List (ℚ × Int)) {m : Int}
    (h : ∀ e ∈ es, intervalOf t0 iv e.2 ≠ m) : bucketOf t0 iv es m = Bucket.zero := by
  have : eventsAt t0 iv es m = [] := by
    unfold eventsAt
    rw [List.filter_eq_nil_iff]
    intro e he
    simpa using h e he
  simp [bucketOf, this, Bucket.zero]

theorem sum_filter_split {M : Type} [AddCommMonoid M] (f : ℚ × Int → M)
    (p q r : ℚ × Int → Bool) (es : List (ℚ × Int))
    (hr : ∀ e ∈ es, r e = (p e || q e)) (hpq : ∀ e ∈ es, ¬ (p e = true ∧ q e = true)) :
    ((es.filter r).map f).sum = ((es.filter p).map f).sum + ((es.filter q).map f).sum := by
  induction es with
  | nil => simp
  | cons e es ih =>
    have ih1 := ih (fun x hx => hr x (List.mem_cons_of_mem _ hx))
      (fun x hx => hpq x (List.mem_cons_of_mem _ hx))
    have hre := hr e (List.mem_cons_self _ _)
    have hpqe := hpq e (List.mem_cons_self _ _)
    cases hp : p e <;> cases hq : q e <;> simp [hp, hq] at hre hpqe <;>
      simp [List.filter_cons, hp, hq, hre, ih1, add_assoc, add_left_comm]

theorem sum_ones (l : List (ℚ × Int)) : (l.map (fun _ => (1 : Int))).sum = (l.length : Int) := by
  induction l with
  | nil => simp
  | cons e es ih => simp [ih]; ring

/-- Summing an additive observation over the aggregates of `n` consecutive intervals gives the
observation summed over the events of those intervals. -/
theorem sum_eventsAt_range {M : Type} [AddCommMonoid M] (f : ℚ × Int → M) (t0 iv : Int)
    (es : List (ℚ × Int)) (L : Int) (n : Nat) :
    ((List.range n).map fun (i : Nat) => ((eventsAt t0 iv es (L + (i : Int))).map f).sum).sum
      = ((es.filter fun e => decide (L ≤ intervalOf t0 iv e.2 ∧
          intervalOf t0 iv e.2 < L + (n : Int))).map f).sum := by
  induction n with
  | zero =>
    have : (es.filter fun e => decide (L ≤ intervalOf t0 iv e.2 ∧
        intervalOf t0 iv e.2 < L + ((0 : Nat) : Int))) = [] := by
      rw [List.filter_eq_nil_iff]
      intro e _
      simp
    rw [this]
    simp
  | succ n ih =>
    rw [List.sum_range_succ, ih]
    symm
    unfold eventsAt
    apply sum_filter_split
    · intro e _
      rw [← Bool.decide_or]
      apply decide_eq_decide.mpr
      push_cast
      omega
    · intro e _
      simp only [decide_eq_true_eq]
      omega

/-! ## The history invariant -/

theorem mod_sub_inj {m c i i' : Int} (hi0 : 0 ≤ i) (hi1 : i < m)
    (hj0 : 0 ≤ i') (hj1 : i' < m) (h : (c - i) % m = (c - i') % m) : i = i' := by
  have hd : m ∣ (c - i) - (c - i') := Int.ModEq.dvd (a := c - i') (b := c - i) h.symm
  have hd' : m ∣ i' - i := by
    have e : (c - i) - (c - i') = i' - i := by ring
    rwa [e] at hd
  have hz : i' - i = 0 := by
    apply Int.eq_zero_of_abs_lt_dvd hd'
    rw [abs_lt]
    constructor <;> omega
  omega

theorem intervalOf_mono (t0 : Int) {iv a b : Int} (hiv : 0 < iv) (hab : a ≤ b) :
    intervalOf t0 iv a ≤ intervalOf t0 iv b := by
  unfold intervalOf
  exact Int.ediv_le_ediv hiv (by omega)

theorem intervalOf_mul_le (t0 : Int) {iv : Int} (t : Int) (hiv : 0 < iv) :
    intervalOf t0 iv t * iv ≤ t - t0 := by
  unfold intervalOf
  exact Int.ediv_mul_le _ (by omega)

theorem History.elapsed_nonneg {t0 : Int} {rw : RollingWindow} {es : List (ℚ × Int)} {tp : Int}
    (h : History t0 rw es tp) {t : Int} (ht : tp ≤ t) : 0 ≤ t - rw.lastTime := by
  have := intervalOf_mul_le t0 tp h.valid.interval_pos
  rw [h.lastTime_eq]
  omega

theorem History.elapsed_div {t0 : Int} {rw : RollingWindow} {es : List (ℚ × Int)} {tp : Int}
    (h : History t0 rw es tp) (t : Int) :
    (t - rw.lastTime) / rw.interval
      = intervalOf t0 rw.interval t - intervalOf t0 rw.interval tp := by
  have hiv := h.valid.interval_pos
  have e : t - rw.lastTime = (t - t0) + (-(intervalOf t0 rw.interval tp)) * rw.interval := by
    rw [h.lastTime_eq]
    ring
  rw [e, Int.add_mul_ediv_right _ _ (by omega)]
  unfold intervalOf
  ring

theorem History.elapsed_mod {t0 : Int} {rw : RollingWindow} {es : List (ℚ × Int)} {tp : Int}
    (h : History t0 rw es tp) (t : Int) :
    t - (t - rw.lastTime) % rw.interval = t0 + intervalOf t0 rw.interval t * rw.interval := by
  have e : t - rw.lastTime = (t - t0) + (-(intervalOf t0 rw.interval tp)) * rw.interval := by
    rw [h.lastTime_eq]
    ring
  rw [e, Int.add_mul_emod_self, Int.emod_def]
  unfold intervalOf
  ring

theorem History.span_value {t0 : Int} {rw : RollingWindow} {es : List (ℚ × Int)} {tp : Int}
    (h : History t0 rw es tp) {t : Int} (ht : tp ≤ t) :
    rw.span t = some
      (if intervalOf t0 rw.interval t - intervalOf t0 rw.interval tp < rw.size
       then intervalOf t0 rw.interval t - intervalOf t0 rw.interval tp else rw.size) := by
  have hiv := h.valid.interval_pos
  have hmono := intervalOf_mono t0 hiv ht
  rw [rw.span_eq t hiv, Int.tdiv_eq_ediv (h.elapsed_nonneg ht) (by omega), h.elapsed_div t]
  congr 1
  by_cases hlt : intervalOf t0 rw.interval t - intervalOf t0 rw.interval tp < rw.size
  · rw [if_pos hlt, if_pos ⟨by omega, hlt⟩]
  · rw [if_neg hlt, if_neg (fun hc => hlt hc.2)]

theorem History.span_cases {t0 : Int} {rw : RollingWindow} {es : List (ℚ × Int)} {tp : Int}
    (h : History t0 rw es tp) {t : Int} (ht : tp ≤ t) :
    ∃ sp, rw.span t = some sp ∧ 0 ≤ sp ∧ sp ≤ rw.size ∧
      ((sp = intervalOf t0 rw.interval t - intervalOf t0 rw.interval tp ∧ sp < rw.size) ∨
        (sp = rw.size ∧
          rw.size ≤ intervalOf t0 rw.interval t - intervalOf t0 rw.interval tp)) := by
  have hmono := intervalOf_mono t0 h.valid.interval_pos ht
  have hsz := h.valid.size_pos
  refine ⟨_, h.span_value ht, ?_⟩
  by_cases hlt : intervalOf t0 rw.interval t - intervalOf t0 rw.interval tp < rw.size
  · rw [if_pos hlt]
    exact ⟨by omega, by omega, Or.inl ⟨rfl, hlt⟩⟩
  · rw [if_neg hlt]
    exact ⟨by omega, le_refl _, Or.inr ⟨rfl, by omega⟩⟩

/-- The bucket that `updateOffset` leaves `a` positions behind the new write position is the
aggregate of the interval `a` intervals before that of the new reading. -/
theorem History.slot_after_reset {t0 : Int} {rw : RollingWindow} {es : List (ℚ × Int)}
    {tp : Int} (h : History t0 rw es tp) {t sp : Int} (h0 : 0 ≤ sp)
    (hcase : (sp = intervalOf t0 rw.interval t - intervalOf t0 rw.interval tp ∧ sp < rw.size) ∨
      (sp = rw.size ∧ rw.size ≤ intervalOf t0 rw.interval t - intervalOf t0 rw.interval tp))
    {a : Int} (ha0 : 0 ≤ a) (ha1 : a < rw.size) :
    (if ((((rw.offset + sp) % rw.size - a) % rw.size) - rw.offset - 1) % rw.size < sp
      then Bucket.zero else rw.win.peek (((rw.offset + sp) % rw.size - a) % rw.size))
      = bucketOf t0 rw.interval es (intervalOf t0 rw.interval t - a) := by
  have hsz : 0 < rw.size := by have := h.valid.size_pos; omega
  have h1 : ((rw.offset + sp) % rw.size - a) % rw.size ≡ rw.offset + sp - a [ZMOD rw.size] :=
    (Int.mod_modEq _ _).trans ((Int.mod_modEq (rw.offset + sp) rw.size).sub_right a)
  have hfwd : ((((rw.offset + sp) % rw.size - a) % rw.size) - rw.offset - 1) % rw.size
      = (sp - a - 1) % rw.size := by
    have h2 := (h1.sub_right rw.offset).sub_right 1
    have e : rw.offset + sp - a - rw.offset - 1 = sp - a - 1 := by ring
    rw [e] at h2
    exact h2
  rw [hfwd]
  by_cases hlt : a < sp
  · have hsp1 : sp ≤ rw.size := by rcases hcase with hc | hc <;> omega
    rw [Int.emod_eq_of_lt (by omega) (by omega), if_pos (by omega)]
    symm
    apply bucketOf_empty
    intro e he
    have := h.seen e he
    rcases hcase with hc | hc <;> omega
  · have hc : sp = intervalOf t0 rw.interval t - intervalOf t0 rw.interval tp ∧ sp < rw.size := by
      rcases hcase with hc | hc
      · exact hc
      · omega
    have e1 : (sp - a - 1) % rw.size = sp - a - 1 + rw.size := by
      rw [← Int.add_emod_self]
      exact Int.emod_eq_of_lt (by omega) (by omega)
    rw [e1, if_neg (by omega)]
    have hslot : ((rw.offset + sp) % rw.size - a) % rw.size
        = (rw.offset - (a - sp)) % rw.size := by
      have e : rw.offset + sp - a = rw.offset - (a - sp) := by ring
      rw [e] at h1
      have h3 := h1.eq
      rwa [Int.emod_emod] at h3
    rw [hslot]
    have := h.slots (a - sp) (by omega) (by omega)
    unfold window.peek
    rw [this, Option.getD_some]
    congr 1
    omega

theorem History.after_add {t0 : Int} {rw : RollingWindow} {es : List (ℚ × Int)} {tp : Int}
    (h : History t0 rw es tp) (v : ℚ) {t : Int} (ht : tp ≤ t) :
    ∃ rw1, rw.Add v t t = some rw1 ∧ History t0 rw1 (es ++ [(v, t)]) t ∧
      rw1.size = rw.size ∧ rw1.interval = rw.interval ∧
      rw1.ignoreCurrent = rw.ignoreCurrent := by
  have hv := h.valid
  have hsz : 0 < rw.size := by have := hv.size_pos; omega
  have hiv := hv.interval_pos
  have hmono := intervalOf_mono t0 hiv ht
  obtain ⟨sp, hsp, h0, h1, hcase⟩ := h.span_cases ht
  obtain ⟨w, hadd, hs, hb⟩ := rw.Add_spec hv v hsp t
  have ho0 : 0 ≤ (rw.offset + sp) % rw.size := Int.emod_nonneg _ (by omega)
  have ho1 : (rw.offset + sp) % rw.size < rw.size := Int.emod_lt_of_pos _ hsz
  refine ⟨_, hadd, ⟨⟨hv.size_pos, hiv, ho0, ho1, hs⟩, le_trans h.origin_le ht, ?_, ?_, ?_⟩,
    rfl, rfl, rfl⟩
  · show (if sp = 0 then rw.lastTime else t - (t - rw.lastTime).tmod rw.interval)
      = t0 + intervalOf t0 rw.interval t * rw.interval
    by_cases hz : sp = 0
    · rw [if_pos hz, h.lastTime_eq]
      have : intervalOf t0 rw.interval t = intervalOf t0 rw.interval tp := by
        rcases hcase with hc | hc <;> omega
      rw [this]
    · rw [if_neg hz, Int.tmod_eq_emod (h.elapsed_nonneg ht) (by omega)]
      exact h.elapsed_mod t
  · intro e he
    show intervalOf t0 rw.interval e.2 ≤ intervalOf t0 rw.interval t
    rcases List.mem_append.mp he with he | he
    · exact le_trans (h.seen e he) hmono
    · rw [List.mem_singleton.mp he]
  · intro a ha0 ha1
    show w.bucketAt (((rw.offset + sp) % rw.size - a) % rw.size)
      = some (bucketOf t0 rw.interval (es ++ [(v, t)]) (intervalOf t0 rw.interval t - a))
    have ha1' : a < rw.size := ha1
    rw [hb _ (Int.emod_nonneg _ (by omega)) (Int.emod_lt_of_pos _ hsz),
      h.slot_after_reset h0 hcase ha0 ha1']
    congr 1
    by_cases hz : a = 0
    · subst hz
      rw [sub_zero, Int.emod_eq_of_lt ho0 ho1, if_pos rfl, sub_zero]
      exact (bucketOf_append_same t0 rw.interval es (v, t) rfl).symm
    · have hne : ¬ ((rw.offset + sp) % rw.size - a) % rw.size = (rw.offset + sp) % rw.size := by
        intro hc
        have e : (rw.offset + sp) % rw.size = ((rw.offset + sp) % rw.size - 0) % rw.size := by
          rw [sub_zero, Int.emod_eq_of_lt ho0 ho1]
        have := mod_sub_inj ha0 ha1' (le_refl 0) hsz (hc.trans e)
        exact hz this
      rw [if_neg hne]
      symm
      apply bucketOf_append_other
      show intervalOf t0 rw.interval t ≠ intervalOf t0 rw.interval t - a
      omega

theorem History.read {t0 : Int} {rw : RollingWindow} {es : List (ℚ × Int)} {tp : Int}
    (h : History t0 rw es tp) {t sp : Int} (hsp : rw.span t = some sp) :
    ∃ log, rw.Reduce recorder t [] = some (rw, log) ∧
      log.map Prod.snd = (List.range (rw.diff sp).toNat).map (fun (i : Nat) =>
        bucketOf t0 rw.interval es
          (intervalOf t0 rw.interval tp - rw.size + sp + 1 + (i : Int))) := by
  have hv := h.valid
  have hsz : 0 < rw.size := by have := hv.size_pos; omega
  obtain ⟨h0, h1⟩ := rw.span_bounds (by omega) hsp
  obtain ⟨log, hred, hlog, -⟩ := rw.Reduce_visits hv.shaped hsp
  refine ⟨log, hred, ?_⟩
  rw [hlog, List.map_map]
  apply List.map_congr_left
  intro i hi
  rw [List.mem_range] at hi
  have hd : rw.diff sp ≤ rw.size - sp := by
    unfold RollingWindow.diff
    split <;> omega
  show rw.win.peek ((rw.offset + sp + 1 + (i : Int)) % rw.size) = _
  have e : rw.offset + sp + 1 + (i : Int)
      = (rw.offset - (rw.size - sp - 1 - (i : Int))) + rw.size := by ring
  rw [e, Int.add_emod_self]
  have := h.slots (rw.size - sp - 1 - (i : Int)) (by omega) (by omega)
  unfold window.peek
  rw [this, Option.getD_some]
  congr 1
  ring

theorem History.after_adds {t0 : Int} {rw : RollingWindow} {es : List (ℚ × Int)} {tp : Int}
    (h : History t0 rw es tp) (es1 : List (ℚ × Int)) (t : Int)
    (hchain : List.Chain (fun a b : Int => a ≤ b) tp (es1.map Prod.snd ++ [t])) :
    ∃ rw1 tp1, addAll rw es1 = some rw1 ∧ History t0 rw1 (es ++ es1) tp1 ∧ tp1 ≤ t ∧
      rw1.size = rw.size ∧ rw1.interval = rw.interval ∧
      rw1.ignoreCurrent = rw.ignoreCurrent := by
  induction es1 generalizing rw es tp with
  | nil =>
    refine ⟨rw, tp, rfl, by simpa using h, ?_, rfl, rfl, rfl⟩
    simp only [List.map_nil, List.nil_append, List.chain_cons] at hchain
    exact hchain.1
  | cons e es1 ih =>
    simp only [List.map_cons, List.cons_append, List.chain_cons] at hchain
    obtain ⟨rw1, hadd, h1, hs1, hi1, hc1⟩ := h.after_add e.1 hchain.1
    obtain ⟨rw2, tp2, hall, h2, hle, hs2, hi2, hc2⟩ := ih h1 hchain.2
    refine ⟨rw2, tp2, ?_, ?_, hle, hs2.trans hs1, hi2.trans hi1, hc2.trans hc1⟩
    · simp only [addAll, hadd, Option.some_bind]
      exact hall
    · simpa using h2

theorem History.init (rw : RollingWindow) (hv : rw.Valid)
    (hzero : ∀ b ∈ rw.win.buckets, b = Bucket.zero) : History rw.lastTime rw [] rw.lastTime := by
  refine ⟨hv, le_refl _, ?_, ?_, ?_⟩
  · simp [intervalOf]
  · intro e he
    cases he
  · intro a ha0 ha1
    have hsz : 0 < rw.size := by have := hv.size_pos; omega
    have hj0 : 0 ≤ (rw.offset - a) % rw.size := Int.emod_nonneg _ (by omega)
    have hj1 : (rw.offset - a) % rw.size < rw.win.size := by
      rw [hv.win_size]
      exact Int.emod_lt_of_pos _ hsz
    obtain ⟨b, hb⟩ := rw.win.bucketAt_isSome hj0 hj1
    rw [hb]
    have hmem : b ∈ rw.win.buckets := by
      unfold window.bucketAt at hb
      rw [if_pos ⟨hj0, hj1⟩] at hb
      exact List.getElem?_mem hb
    rw [hzero b hmem]
    simp [bucketOf, eventsAt, Bucket.zero]

/-- What a read returns in terms of the history: the buckets visited aggregate exactly the events
of the `diff` consecutive intervals that end `span` intervals before the window's horizon. -/
theorem History.read_totals {t0 : Int} {rw : RollingWindow} {es : List (ℚ × Int)} {tp : Int}
    (h : History t0 rw es tp) {t sp : Int} (hsp : rw.span t = some sp) :
    ∃ log, rw.Reduce recorder t [] = some (rw, log) ∧
      (log.map fun e => e.2.sum).sum = ((es.filter fun e => decide
        (intervalOf t0 rw.interval tp - rw.size + sp + 1 ≤ intervalOf t0 rw.interval e.2 ∧
          intervalOf t0 rw.interval e.2
            < intervalOf t0 rw.interval tp - rw.size + sp + 1
              + ((rw.diff sp).toNat : Int))).map Prod.fst).sum ∧
      (log.map fun e => e.2.count).sum = (((es.filter fun e => decide
        (intervalOf t0 rw.interval tp - rw.size + sp + 1 ≤ intervalOf t0 rw.interval e.2 ∧
          intervalOf t0 rw.interval e.2
            < intervalOf t0 rw.interval tp - rw.size + sp + 1
              + ((rw.diff sp).toNat : Int))).length : Nat) : Int) := by
  obtain ⟨log, hred, hsnd⟩ := h.read hsp
  refine ⟨log, hred, ?_, ?_⟩
  · have e : (log.map fun e => e.2.sum) = (log.map Prod.snd).map Bucket.sum := by
      rw [List.map_map]
      rfl
    rw [e, hsnd, List.map_map, ← sum_eventsAt_range Prod.fst]
    rfl
  · have e : (log.map fun e => e.2.count) = (log.map Prod.snd).map Bucket.count := by
      rw [List.map_map]
      rfl
    rw [e, hsnd, List.map_map, ← sum_ones, ← sum_eventsAt_range (fun _ => (1 : Int))]
    congr 1
    apply List.map_congr_left
    intro i _
    rw [sum_ones]
    rfl

/-! ## The expired run in slot coordinates -/

/-- A slot `j` lies in the run `(offset + k) % size`, `1 <= k <= sp`, exactly when its forward
distance `(j - offset - 1) % size` from the slot after `offset` is below `sp`. -/
theorem run_iff_forward {m off sp j : Int} (hm : 0 < m) (hsp : sp ≤ m)
    (hj0 : 0 ≤ j) (hj1 : j < m) :
    (∃ k : Int, 1 ≤ k ∧ k ≤ sp ∧ (off + k) % m = j) ↔ (j - off - 1) % m < sp := by
  have hf0 : 0 ≤ (j - off - 1) % m := Int.emod_nonneg _ (by omega)
  have hf1 : (j - off - 1) % m < m := Int.emod_lt_of_pos _ hm
  have hslot : (off + 1 + (j - off - 1) % m) % m = j := by
    have := @mod_slot m (off + 1) j hj0 hj1
    have e : j - (off + 1) = j - off - 1 := by ring
    rwa [e] at this
  constructor
  · rintro ⟨k, hk1, hk2, heq⟩
    have e : off + k = off + 1 + (k - 1) := by ring
    rw [e] at heq
    have := mod_add_inj (by omega) (by omega) hf0 hf1 (heq.trans hslot.symm)
    omega
  · intro hlt
    refine ⟨(j - off - 1) % m + 1, by omega, by omega, ?_⟩
    have e : off + ((j - off - 1) % m + 1) = off + 1 + (j - off - 1) % m := by ring
    rw [e]
    exact hslot

/-! ## Re-alignment of `lastTime` -/

theorem RollingWindow.Add_realign (rw : RollingWindow) (hv : rw.Valid) (v : ℚ) {now : Int}
    (hnow : rw.lastTime ≤ now) :
    ∃ rw1, rw.Add v now now = some rw1 ∧ rw1.Valid ∧ rw1.interval = rw.interval ∧
      rw1.lastTime ≤ now ∧ now < rw1.lastTime + rw.interval ∧
      rw1.lastTime = rw.lastTime + (now - rw.lastTime) / rw.interval * rw.interval := by
  have hsz : 0 < rw.size := by have := hv.size_pos; omega
  have hiv := hv.interval_pos
  have he : 0 ≤ now - rw.lastTime := by omega
  have hm0 : 0 ≤ (now - rw.lastTime) % rw.interval := Int.emod_nonneg _ (by omega)
  have hm1 : (now - rw.lastTime) % rw.interval < rw.interval := Int.emod_lt_of_pos _ hiv
  have hdef : (now - rw.lastTime) % rw.interval
      = now - rw.lastTime - (now - rw.lastTime) / rw.interval * rw.interval := by
    rw [Int.emod_def]
    ring
  have hq0 : 0 ≤ (now - rw.lastTime) / rw.interval := Int.ediv_nonneg he (le_of_lt hiv)
  obtain ⟨sp, hsp⟩ : ∃ sp, rw.span now = some sp := ⟨_, rw.span_eq now hiv⟩
  have hspv := rw.span_eq now hiv
  rw [hsp, Int.tdiv_eq_ediv he (le_of_lt hiv)] at hspv
  have hspv := Option.some.inj hspv
  obtain ⟨w, hadd, hs, -⟩ := rw.Add_spec hv v hsp now
  have hlast : (if sp = 0 then rw.lastTime
      else now - (now - rw.lastTime).tmod rw.interval)
      = rw.lastTime + (now - rw.lastTime) / rw.interval * rw.interval := by
    by_cases hz : sp = 0
    · rw [if_pos hz]
      have hq : (now - rw.lastTime) / rw.interval = 0 := by
        rw [hz] at hspv
        split at hspv <;> omega
      rw [hq]
      ring
    · rw [if_neg hz, Int.tmod_eq_emod he (le_of_lt hiv), hdef]
      ring
  refine ⟨_, hadd, ⟨hv.size_pos, hiv, Int.emod_nonneg _ (by omega),
    Int.emod_lt_of_pos _ hsz, hs⟩, rfl, ?_, ?_, hlast⟩
  · show (if sp = 0 then rw.lastTime else now - (now - rw.lastTime).tmod rw.interval) ≤ now
    rw [hlast]
    omega
  · show now < (if sp = 0 then rw.lastTime else now - (now - rw.lastTime).tmod rw.interval)
      + rw.interval
    rw [hlast]
    omega

theorem RollingWindow.addAll_realign (rw : RollingWindow) (hv : rw.Valid)
    (es : List (ℚ × Int)) (tp : Int) (htp : rw.lastTime ≤ tp)
    (hchain : List.Chain (fun a b : Int => a ≤ b) tp (es.map Prod.snd)) :
    ∃ rw2, addAll rw es = some rw2 ∧ rw2.interval = rw.interval ∧
      ∃ k : Int, 0 ≤ k ∧ rw2.lastTime - rw.lastTime = k * rw.interval := by
  induction es generalizing rw tp with
  | nil => exact ⟨rw, rfl, rfl, 0, le_refl _, by ring⟩
  | cons e es ih =>
    simp only [List.map_cons, List.chain_cons] at hchain
    obtain ⟨rw1, hadd, hv1, hi1, hle, -, hlast⟩ := rw.Add_realign hv e.1 (le_trans htp hchain.1)
    obtain ⟨rw2, hall, hi2, k, hk0, hk⟩ := ih rw1 hv1 e.2 hle hchain.2
    refine ⟨rw2, ?_, hi2.trans hi1, k + (e.2 - rw.lastTime) / rw.interval, ?_, ?_⟩
    · simp only [addAll, hadd, Option.some_bind]
      exact hall
    · have := Int.ediv_nonneg (a := e.2 - rw.lastTime) (b := rw.interval)
        (by have := le_trans htp hchain.1; omega) (le_of_lt hv.interval_pos)
      omega
    · rw [hi1] at hk
      rw [add_mul, ← hk, hlast]
      ring

/-! ## Further lemmas on `span` and on frames -/

theorem RollingWindow.span_expired (rw : RollingWindow) (hi : 0 < rw.interval) {now : Int}
    (h : rw.size * rw.interval ≤ now - rw.lastTime) (hs : 0 ≤ rw.size) :
    rw.span now = some rw.size := by
  rw [rw.span_eq now hi]
  have he : 0 ≤ now - rw.lastTime := le_trans (mul_nonneg hs (le_of_lt hi)) h
  rw [Int.tdiv_eq_ediv he (le_of_lt hi)]
  have hq : rw.size ≤ (now - rw.lastTime) / rw.interval := Int.le_ediv_of_mul_le hi h
  rw [if_neg (by omega)]

theorem window.visit_frame {σ : Type} {fn : Visitor σ} (hfn : fn.ReadOnly) {ws r : window × σ}
    {idx : Int} (h : window.visit fn ws idx = some r) : r.1 = ws.1 := by
  unfold window.visit at h
  cases hb : ws.1.bucketAt idx with
  | none => rw [hb] at h; cases h
  | some b =>
    rw [hb] at h
    simp only [Option.map_some', Option.some.injEq] at h
    rw [← h]
    simp only [hfn idx b ws.2]
    exact ws.1.store_bucketAt hb

theorem window.reduce_frame {σ : Type} {fn : Visitor σ} (hfn : fn.ReadOnly) (w : window)
    (start count : Int) (s : σ) {r : window × σ} (h : w.reduce start count fn s = some r) :
    r.1 = w := by
  unfold window.reduce at h
  split at h
  · revert r
    generalize count.toNat = n
    induction n with
    | zero =>
      intro r h
      simp only [List.range_zero, List.foldlM_nil] at h
      cases h
      rfl
    | succ n ih =>
      intro r h
      rw [List.range_succ, List.foldlM_append] at h
      cases h0 : List.foldlM (fun ws (i : Nat) =>
          (goMod (start + (i : Int)) w.size).bind (window.visit fn ws)) (w, s) (List.range n) with
      | none => rw [h0] at h; cases h
      | some r0 =>
        rw [h0] at h
        simp only [Option.bind_eq_bind, Option.some_bind, List.foldlM_cons, List.foldlM_nil] at h
        cases hm : goMod (start + (n : Int)) w.size with
        | none => rw [hm] at h; cases h
        | some idx =>
          rw [hm] at h
          simp only [Option.some_bind] at h
          cases hv : window.visit fn r0 idx with
          | none => rw [hv] at h; cases h
          | some r1 =>
            rw [hv] at h
            simp only [Option.some_bind, Option.pure_def, Option.some.injEq] at h
            rw [← h, window.visit_frame hfn hv]
            exact ih h0
  · cases h

theorem RollingWindow.Reduce_frame {σ : Type} (rw : RollingWindow) {fn : Visitor σ}
    (hfn : fn.ReadOnly) (now : Int) (s : σ) {r : RollingWindow × σ}
    (h : rw.Reduce fn now s = some r) : r.1 = rw := by
  unfold RollingWindow.Reduce at h
  cases hsp : rw.span now with
  | none => rw [hsp] at h; cases h
  | some sp =>
    rw [hsp] at h
    simp only [Option.some_bind] at h
    split at h
    · cases hm : goMod (rw.offset + sp + 1) rw.size with
      | none => rw [hm] at h; cases h
      | some start =>
        rw [hm] at h
        simp only [Option.some_bind] at h
        cases hr : rw.win.reduce start (rw.diff sp) fn s with
        | none => rw [hr] at h; cases h
        | some r0 =>
          rw [hr] at h
          simp only [Option.map_some', Option.some.injEq] at h
          rw [← h]
          simp only [window.reduce_frame hfn _ _ _ _ hr]
    · cases h
      rfl

theorem step_valid {σ : Type} (fn : Visitor σ) (st : RollingWindow × σ) (hv : st.1.Valid)
    (op : Op) : ∃ st1, step fn st op = some st1 ∧ st1.1.Valid ∧ st1.1.size = st.1.size := by
  cases op with
  | add v t1 t2 =>
    obtain ⟨rw1, h1, hv1, hs1, -, -⟩ := st.1.Add_valid hv v t1 t2
    exact ⟨(rw1, st.2), by simp [step, h1], hv1, hs1⟩
  | reduce now =>
    obtain ⟨w, s1, h1, hs1⟩ := st.1.Reduce_total hv fn now st.2
    exact ⟨_, h1, ⟨hv.size_pos, hv.interval_pos, hv.offset_nonneg, hv.offset_lt, hs1⟩, rfl⟩

/-! ## The claims -/

/-- C2 (offset invariant). From a state with `size >= 1`, `interval > 0`, `0 <= offset < size`
and a window of `size` buckets, every sequence of `Add` and `Reduce` calls, at arbitrary clock
readings and with an arbitrary visitor, runs to completion, and after each call of the sequence
`0 <= offset < size` holds (with `size` unchanged). -/
theorem C2_offset_invariant {σ : Type} (fn : Visitor σ) (rw : RollingWindow) (hv : rw.Valid)
    (s : σ) (ops : List Op) :
    ∃ states, runTrace fn (rw, s) ops = some states ∧ states.length = ops.length ∧
      ∀ st ∈ states, 0 ≤ st.1.offset ∧ st.1.offset < st.1.size ∧ st.1.size = rw.size := by
  induction ops generalizing rw s with
  | nil => exact ⟨[], rfl, rfl, by simp⟩
  | cons op ops ih =>
    obtain ⟨st1, h1, hv1, hs1⟩ := step_valid fn (rw, s) hv op
    obtain ⟨rest, hr, hl, hall⟩ := ih st1.1 hv1 st1.2
    refine ⟨st1 :: rest, ?_, by simp [hl], ?_⟩
    · simp only [runTrace, h1, Option.some_bind]
      rw [hr]
      rfl
    · intro st hst
      rcases List.mem_cons.mp hst with h | h
      · subst h
        exact ⟨hv1.offset_nonneg, hv1.offset_lt, hs1⟩
      · obtain ⟨a, b, c⟩ := hall st h
        exact ⟨a, b, c.trans hs1⟩

/-- Witness of C2: on `c3State`, an `Add`, a late `Reduce`, an `Add` whose second clock reading
is earlier than its first, and a `Reduce` at reading 0. -/
theorem C2_offset_invariant_witness :
    ∃ states, runTrace recorder (c3State, [])
        [Op.add 1 0 0, Op.reduce 5, Op.add 2 7 3, Op.reduce 0] = some states ∧
      states.length = 4 ∧
      ∀ st ∈ states, 0 ≤ st.1.offset ∧ st.1.offset < st.1.size ∧ st.1.size = 3 :=
  C2_offset_invariant recorder c3State ⟨by decide, by decide, by decide, by decide, by decide⟩
    [] [Op.add 1 0 0, Op.reduce 5, Op.add 2 7 3, Op.reduce 0]

/-- C3 as stated fails: on `c3State` a `Reduce` at clock reading 0 visits slots 1, 2, 0, and a
second `Reduce` at clock reading 1, with no `Add` in between, visits only slots 2, 0. -/
theorem C3_counterexample :
    ¬ (∀ (rw : RollingWindow) (t t' : Int) (r r' : RollingWindow × List (Int × Bucket)),
        rw.Reduce recorder t [] = some r → r.1.Reduce recorder t' [] = some r' → r.2 = r'.2) := by
  intro h
  have h1 : c3State.Reduce recorder 0 []
      = some (c3State, [(1, Bucket.zero), (2, Bucket.zero), (0, Bucket.zero)]) := by decide
  have h2 : c3State.Reduce recorder 1 []
      = some (c3State, [(2, Bucket.zero), (0, Bucket.zero)]) := by decide
  have := h c3State 0 1 _ _ h1 h2
  simp at this

/-- C3 (amended: Reduce is repeatable while the span is unchanged). For every state, two calls
of `Reduce` with no `Add` between them, made at clock readings for which `span()` returns the
same value: if the first call completes it leaves the state as it was, and the second call then
invokes the visitor on the same buckets, in the same order, with the same values. On a valid
state the first call does complete. -/
theorem C3_reduce_repeatable (rw : RollingWindow) (t t' : Int)
    (hspan : rw.span t = rw.span t') :
    (∀ r, rw.Reduce recorder t [] = some r →
      r.1 = rw ∧ r.1.Reduce recorder t' [] = some r) ∧
    (rw.Valid → ∃ r, rw.Reduce recorder t [] = some r) := by
  refine ⟨fun r hr => ?_, fun hv => ?_⟩
  · have hframe := rw.Reduce_frame recorder_readOnly t [] hr
    refine ⟨hframe, ?_⟩
    rw [hframe, ← hr]
    unfold RollingWindow.Reduce
    rw [hspan]
  · obtain ⟨w, s1, hred, -⟩ := rw.Reduce_total hv recorder t []
    exact ⟨_, hred⟩

/-- Witness of C3 (amended): on the scenario state the readings 1.2s and 1.7s lie in the same
interval, and the first `Reduce` completes. -/
theorem C3_reduce_repeatable_witness :
    scenarioState.span 1200000000 = scenarioState.span 1700000000 ∧
      ∃ r, scenarioState.Reduce recorder 1200000000 [] = some r ∧ r.1 = scenarioState ∧
        r.1.Reduce recorder 1700000000 [] = some r := by
  have h := C3_reduce_repeatable scenarioState 1200000000 1700000000 (by decide)
  obtain ⟨r, hr⟩ := h.2 ⟨by decide, by decide, by decide, by decide, by decide⟩
  exact ⟨by decide, r, hr, h.1 r hr⟩

/-- C4 (expiry on read). With `size >= 1` and `interval > 0`, a `Reduce` whose clock reading is
more than `size * interval` after `lastTime` completes without invoking the visitor: for every
visitor the state and the visitor's state are returned unchanged, and the recording visitor
records nothing. This holds for either value of `ignoreCurrent`. -/
theorem C4_expiry_on_read {σ : Type} (rw : RollingWindow) (hsize : 1 ≤ rw.size)
    (hint : 0 < rw.interval) (now : Int) (hlate : rw.size * rw.interval < now - rw.lastTime)
    (fn : Visitor σ) (s : σ) :
    rw.Reduce fn now s = some (rw, s) ∧ rw.Reduce recorder now [] = some (rw, []) := by
  have hsp := rw.span_expired hint (le_of_lt hlate) (by omega)
  have hd : ¬ rw.diff rw.size > 0 := by
    unfold RollingWindow.diff
    rw [if_neg (by omega)]
    omega
  constructor <;>
  · unfold RollingWindow.Reduce
    rw [hsp]
    simp only [Option.some_bind]
    rw [if_neg hd]

/-- Witness of C4: three buckets, interval 1, read 4 time units after `lastTime`. -/
theorem C4_expiry_on_read_witness : c3State.Reduce recorder 4 [] = some (c3State, []) :=
  (C4_expiry_on_read c3State (by decide) (by decide) 4 (by decide) recorder []).2

/-- C10 (Reduce is read-only). For every state, every visitor that does not write to the bucket
it is handed and every clock reading, a `Reduce` that completes returns the state it was called
on: `size`, `interval`, `offset`, `lastTime`, `ignoreCurrent` and every bucket are unchanged.
On a valid state `Reduce` does complete. -/
theorem C10_reduce_read_only {σ : Type} (rw : RollingWindow) (fn : Visitor σ)
    (hfn : fn.ReadOnly) (now : Int) (s : σ) :
    (∀ r, rw.Reduce fn now s = some r → r.1 = rw) ∧
      (rw.Valid → ∃ s1, rw.Reduce fn now s = some (rw, s1)) := by
  refine ⟨fun r h => rw.Reduce_frame hfn now s h, fun hv => ?_⟩
  obtain ⟨sp, hsp⟩ : ∃ sp, rw.span now = some sp := ⟨_, rw.span_eq now hv.interval_pos⟩
  exact ⟨_, rw.Reduce_readOnly hv.shaped hfn hsp s⟩

/-- Witness of C10: the recording visitor writes nothing, and a `Reduce` with it on `c3State`
at reading 1 completes and returns `c3State`. -/
theorem C10_reduce_read_only_witness :
    Visitor.ReadOnly recorder ∧ ∃ s1, c3State.Reduce recorder 1 [] = some (c3State, s1) :=
  ⟨recorder_readOnly, (C10_reduce_read_only c3State recorder recorder_readOnly 1 []).2
    ⟨by decide, by decide, by decide, by decide, by decide⟩⟩

/-- C8 (visit order and staleness). On a state with `size >= 1`, `0 <= offset < size` and a
window of `size` buckets, for a span value `sp = span()` with
`diff > 0`, `Reduce` completes and invokes the visitor on the buckets at the slots
`(offset + sp + 1 + i) % size` for `i = 0 .. diff - 1`, in that order, each time on the bucket
stored in that slot; the visited slots are pairwise distinct, none lies in the expired run
`(offset + k) % size`, `1 <= k <= sp`, and unless the current bucket is ignored (`sp = 0` with
`ignoreCurrent`) the last visit is to the bucket at `offset`. -/
theorem C8_visit_order (rw : RollingWindow) (hv : rw.Shaped) (now sp : Int)
    (hsp : rw.span now = some sp) (hd : 0 < rw.diff sp) :
    ∃ log, rw.Reduce recorder now [] = some (rw, log) ∧
      log = (List.range (rw.diff sp).toNat).map (fun (i : Nat) =>
        ((rw.offset + sp + 1 + (i : Int)) % rw.size,
          rw.win.peek ((rw.offset + sp + 1 + (i : Int)) % rw.size))) ∧
      (∀ e ∈ log, rw.win.bucketAt e.1 = some e.2) ∧
      (log.map Prod.fst).Nodup ∧
      (∀ k : Int, 1 ≤ k → k ≤ sp → (rw.offset + k) % rw.size ∉ log.map Prod.fst) ∧
      (¬ (sp = 0 ∧ rw.ignoreCurrent = true) →
        log.getLast? = some (rw.offset, rw.win.peek rw.offset)) := by
  obtain ⟨log, hred, hlog, -, hval, hnd, hexp⟩ := rw.Reduce_visits hv hsp
  refine ⟨log, hred, hlog, hval, hnd, hexp, fun hcur => ?_⟩
  rw [hlog]
  exact rw.Reduce_visits_last hv hd hcur

/-- Witness of C8: the scenario of section 8. `Add(1)` at `t = 0` and `Add(2)` at `t = 1.2s` lead
to `scenarioState`, where a `Reduce` at `t = 1.2s` has span 0 and visits bucket 2, bucket 0,
bucket 1, with sums 0, 1, 2. -/
theorem C8_visit_order_witness :
    (scenarioInit.Add 1 0 0).bind (fun r => r.Add 2 1200000000 1200000000) = some scenarioState ∧
      scenarioState.span 1200000000 = some 0 ∧
      scenarioState.Reduce recorder 1200000000 [] = some (scenarioState,
        [(2, { sum := 0, count := 0 }), (0, { sum := 1, count := 1 }),
          (1, { sum := 2, count := 1 })]) := by
  refine ⟨?_, by decide, ?_⟩
  · have e1 : Int.tdiv 1200000000 1000000000 = 1 := by decide
    have e2 : Int.tmod 1200000000 1000000000 = 200000000 := by decide
    have e3 : Int.tmod 1 3 = 1 := by decide
    simp [scenarioInit, scenarioState, RollingWindow.Add, RollingWindow.updateOffset,
      RollingWindow.span, RollingWindow.resetExpired, goDiv, goMod, timex.Since, window.add,
      window.resetBucket, window.bucketAt, window.store, window.size, Bucket.add, Bucket.reset,
      Bucket.zero, List.range, List.range.loop, e1, e2, e3]
  · obtain ⟨log, hred, hlog, -⟩ := C8_visit_order scenarioState
      ⟨by decide, by decide, by decide, by decide⟩ 1200000000 0 (by decide) (by decide)
    rw [hred, hlog]
    decide

theorem fiveBuckets_Add (ic : Bool) :
    (fiveBuckets ic).Add 1 0 0 = some (fiveBucketsWritten ic) := by
  have e1 : Int.tdiv 0 1 = 0 := by decide
  simp [fiveBuckets, fiveBucketsWritten, RollingWindow.Add, RollingWindow.updateOffset,
    RollingWindow.span, goDiv, timex.Since, window.add, window.bucketAt, window.store,
    window.size, Bucket.add, Bucket.zero, e1]

/-- C6 (ignoreCurrent boundary). On a valid window with `ignoreCurrent = true`, an `Add`
completes, and a `Reduce` made afterwards with no interval boundary crossed (`span = 0`)
completes, leaves the state as it is and invokes the visitor on exactly `size - 1` buckets,
at pairwise distinct slots, none of them the slot `offset` that the `Add` has just written. -/
theorem C6_ignoreCurrent_boundary (rw : RollingWindow) (hv : rw.Valid)
    (hic : rw.ignoreCurrent = true) (v : ℚ) (t1 t2 now : Int) :
    ∃ rw1, rw.Add v t1 t2 = some rw1 ∧
      (rw1.span now = some 0 →
        ∃ log, rw1.Reduce recorder now [] = some (rw1, log) ∧
          (log.length : Int) = rw.size - 1 ∧
          (log.map Prod.fst).Nodup ∧
          rw1.offset ∉ log.map Prod.fst) := by
  obtain ⟨rw1, hadd, hv1, hs1, -, hic1⟩ := rw.Add_valid hv v t1 t2
  refine ⟨rw1, hadd, fun hsp => ?_⟩
  obtain ⟨log, hred, hlog, hfst, -, hnd, -⟩ := rw1.Reduce_visits hv1.shaped hsp
  have hd : rw1.diff 0 = rw.size - 1 := by
    unfold RollingWindow.diff
    rw [if_pos ⟨rfl, hic1.trans hic⟩, hs1]
  have hsz := hv.size_pos
  refine ⟨log, hred, ?_, hnd, ?_⟩
  · rw [hlog, List.length_map, List.length_range, hd]
    omega
  · intro hmem
    rw [hfst, List.mem_map] at hmem
    obtain ⟨i, hi, heq⟩ := hmem
    rw [List.mem_range, hd] at hi
    have e1 : rw1.offset + 0 + 1 + (i : Int) = rw1.offset + 1 + (i : Int) := by ring
    have e2 : rw1.offset = (rw1.offset + 1 + (rw1.size - 1)) % rw1.size := by
      have e3 : rw1.offset + 1 + (rw1.size - 1) = rw1.offset + rw1.size := by ring
      rw [e3, Int.add_emod_self, Int.emod_eq_of_lt hv1.offset_nonneg hv1.offset_lt]
    rw [e1] at heq
    have := mod_add_inj (by omega) (by omega) (by omega) (by omega) (heq.trans e2)
    omega

/-- Witness of C6: `size = 5`, one `Add` at reading 0 and a `Reduce` at the same reading give
span 0 and 4 visits. -/
theorem C6_ignoreCurrent_boundary_witness :
    ∃ rw1, (fiveBuckets true).Add 1 0 0 = some rw1 ∧ rw1.span 0 = some 0 ∧
      ∃ log, rw1.Reduce recorder 0 [] = some (rw1, log) ∧ (log.length : Int) = 5 - 1 ∧
        (log.map Prod.fst).Nodup ∧ rw1.offset ∉ log.map Prod.fst := by
  obtain ⟨rw1, hadd, h⟩ := C6_ignoreCurrent_boundary (fiveBuckets true)
    ⟨by decide, by decide, by decide, by decide, by decide⟩ rfl 1 0 0 0
  have hrw1 : rw1 = fiveBucketsWritten true :=
    Option.some.inj (hadd.symm.trans (fiveBuckets_Add true))
  have hspan : rw1.span 0 = some 0 := by
    rw [hrw1]
    decide
  exact ⟨rw1, hadd, hspan, h hspan⟩

/-- C7 (ignoreCurrent off boundary). On a valid window with `ignoreCurrent = false`, an `Add`
completes, and a `Reduce` made afterwards with `span = 0` completes, leaves the state as it is
and invokes the visitor on all `size` buckets, each slot exactly once, starting at slot
`(offset + 1) % size` and ending with the bucket at `offset` that the `Add` has just written. -/
theorem C7_ignoreCurrent_off_boundary (rw : RollingWindow) (hv : rw.Valid)
    (hic : rw.ignoreCurrent = false) (v : ℚ) (t1 t2 now : Int) :
    ∃ rw1, rw.Add v t1 t2 = some rw1 ∧
      (rw1.span now = some 0 →
        ∃ log, rw1.Reduce recorder now [] = some (rw1, log) ∧
          (log.length : Int) = rw.size ∧
          (log.map Prod.fst).Nodup ∧
          (∀ j, 0 ≤ j → j < rw.size → j ∈ log.map Prod.fst) ∧
          (log.map Prod.fst).head? = some ((rw1.offset + 1) % rw.size) ∧
          log.getLast? = some (rw1.offset, rw1.win.peek rw1.offset)) := by
  obtain ⟨rw1, hadd, hv1, hs1, -, hic1⟩ := rw.Add_valid hv v t1 t2
  refine ⟨rw1, hadd, fun hsp => ?_⟩
  obtain ⟨log, hred, hlog, hfst, -, hnd, -⟩ := rw1.Reduce_visits hv1.shaped hsp
  have hcur : ¬ ((0 : Int) = 0 ∧ rw1.ignoreCurrent = true) := by
    rw [hic1, hic]
    simp
  have hd : rw1.diff 0 = rw.size := by
    unfold RollingWindow.diff
    rw [if_neg hcur, hs1]
    omega
  have hsz := hv.size_pos
  have hdpos : 0 < rw1.diff 0 := by omega
  have hlastIdx := rw1.Reduce_visits_last hv1.shaped hdpos hcur
  refine ⟨log, hred, ?_, hnd, ?_, ?_, ?_⟩
  · rw [hlog, List.length_map, List.length_range, hd]
    omega
  · intro j hj0 hj1
    rw [hfst, hd, hs1]
    have := slots_cover (m := rw.size) (rw1.offset + 0 + 1) hj0 hj1
    exact this
  · rw [hfst, List.head?_map, List.head?_range, if_neg (by omega), hs1]
    simp
  · rw [hlog]
    exact hlastIdx

/-- Witness of C7: `size = 5`, one `Add` at reading 0 and a `Reduce` at the same reading give
span 0 and 5 visits. -/
theorem C7_ignoreCurrent_off_boundary_witness :
    ∃ rw1, (fiveBuckets false).Add 1 0 0 = some rw1 ∧ rw1.span 0 = some 0 ∧
      ∃ log, rw1.Reduce recorder 0 [] = some (rw1, log) ∧ (log.length : Int) = 5 := by
  obtain ⟨rw1, hadd, h⟩ := C7_ignoreCurrent_off_boundary (fiveBuckets false)
    ⟨by decide, by decide, by decide, by decide, by decide⟩ rfl 1 0 0 0
  have hrw1 : rw1 = fiveBucketsWritten false :=
    Option.some.inj (hadd.symm.trans (fiveBuckets_Add false))
  have hspan : rw1.span 0 = some 0 := by
    rw [hrw1]
    decide
  obtain ⟨log, hred, hlen, -⟩ := h hspan
  exact ⟨rw1, hadd, hspan, log, hred, hlen⟩

/-- C5 (full wraparound on write). On a valid window with arbitrary bucket contents, an `Add(v)`
at a clock reading at least `size * interval` after `lastTime` completes; its `updateOffset`
step leaves every bucket reset, and afterwards `offset` is unchanged, the bucket at `offset` has
`sum = v` and `count = 1` and every other bucket has `sum = 0` and `count = 0`. With
`ignoreCurrent = false` an immediately following `Reduce` (same clock reading) visits all `size`
buckets, in the order `(offset + 1 + i) % size`, and sees exactly these contents. -/
theorem C5_full_wraparound (rw : RollingWindow) (hv : rw.Valid) (v : ℚ) (now : Int)
    (hidle : rw.size * rw.interval ≤ now - rw.lastTime) :
    ∃ rw1 rw2, rw.updateOffset now now = some rw1 ∧
      (∀ j, 0 ≤ j → j < rw.size → rw1.win.bucketAt j = some { sum := 0, count := 0 }) ∧
      rw.Add v now now = some rw2 ∧ rw2.offset = rw.offset ∧ rw2.size = rw.size ∧
      (∀ j, 0 ≤ j → j < rw.size → rw2.win.bucketAt j =
        some (if j = rw.offset then { sum := v, count := 1 } else { sum := 0, count := 0 })) ∧
      (rw.ignoreCurrent = false →
        rw2.Reduce recorder now [] = some (rw2, (List.range rw.size.toNat).map (fun (i : Nat) =>
          ((rw.offset + 1 + (i : Int)) % rw.size,
            if (rw.offset + 1 + (i : Int)) % rw.size = rw.offset
            then { sum := v, count := 1 } else { sum := 0, count := 0 })))) := by
  have hsz : 0 < rw.size := by have := hv.size_pos; omega
  have hint := hv.interval_pos
  have hsp := rw.span_expired hint hidle (by omega)
  have hoff : (rw.offset + rw.size) % rw.size = rw.offset := by
    rw [Int.add_emod_self, Int.emod_eq_of_lt hv.offset_nonneg hv.offset_lt]
  have hfwd : ∀ j : Int, (j - rw.offset - 1) % rw.size < rw.size :=
    fun j => Int.emod_lt_of_pos _ hsz
  obtain ⟨w0, hupd, -, hb0⟩ := rw.updateOffset_spec hv hsp now
  obtain ⟨w, hadd, hs, hb⟩ := rw.Add_spec hv v hsp now
  have hcontents : ∀ j, 0 ≤ j → j < rw.size → w.bucketAt j =
      some (if j = rw.offset then { sum := v, count := 1 } else { sum := 0, count := 0 }) := by
    intro j hj0 hj1
    rw [hb j hj0 hj1, hoff, if_pos (hfwd j)]
    simp [Bucket.add, Bucket.zero]
  have helapsed : 0 ≤ now - rw.lastTime := le_trans (mul_nonneg (by omega) (by omega)) hidle
  refine ⟨_, _, hupd, ?_, hadd, hoff, rfl, hcontents, fun hic => ?_⟩
  · intro j hj0 hj1
    rw [hb0 j hj0 hj1, if_pos (hfwd j)]
    rfl
  · have hv2 : RollingWindow.Valid { rw with
        win := w
        offset := (rw.offset + rw.size) % rw.size
        lastTime := if rw.size = 0 then rw.lastTime
          else now - (now - rw.lastTime).tmod rw.interval } :=
      ⟨hv.size_pos, hv.interval_pos, by rw [hoff]; exact hv.offset_nonneg,
        by rw [hoff]; exact hv.offset_lt, hs⟩
    have hsp0 : RollingWindow.span { rw with
        win := w
        offset := (rw.offset + rw.size) % rw.size
        lastTime := if rw.size = 0 then rw.lastTime
          else now - (now - rw.lastTime).tmod rw.interval } now = some 0 := by
      refine RollingWindow.span_same_interval _ hv2.size_pos ?_ ?_
      · simp only [if_neg (show ¬ rw.size = 0 by omega)]
        have := Int.tmod_nonneg rw.interval helapsed
        omega
      · simp only [if_neg (show ¬ rw.size = 0 by omega)]
        have := Int.tmod_lt_of_pos (now - rw.lastTime) hint
        omega
    rw [RollingWindow.Reduce_recorder _ hv2.shaped hsp0 []]
    have hd : RollingWindow.diff { rw with
        win := w
        offset := (rw.offset + rw.size) % rw.size
        lastTime := if rw.size = 0 then rw.lastTime
          else now - (now - rw.lastTime).tmod rw.interval } 0 = rw.size := by
      unfold RollingWindow.diff
      simp [hic]
    rw [hd]
    simp only [List.nil_append, hoff, add_zero]
    congr 2
    apply List.map_congr_left
    intro i _
    have hi0 : 0 ≤ (rw.offset + 1 + (i : Int)) % rw.size := Int.emod_nonneg _ (by omega)
    have hi1 : (rw.offset + 1 + (i : Int)) % rw.size < rw.size := Int.emod_lt_of_pos _ hsz
    have := hcontents _ hi0 hi1
    simp only [window.peek, this, Option.getD_some]

/-- Witness of C5: `size = 3`, `interval = 1s`, five idle intervals, then `Add(9)`: the next
`Reduce` sees slot 1 with sum 9 and the two other slots empty. -/
theorem C5_full_wraparound_witness :
    ∃ rw2, idleState.Add 9 5000000000 5000000000 = some rw2 ∧ rw2.offset = 1 ∧
      rw2.Reduce recorder 5000000000 [] = some (rw2,
        [(2, { sum := 0, count := 0 }), (0, { sum := 0, count := 0 }),
          (1, { sum := 9, count := 1 })]) := by
  obtain ⟨rw1, rw2, -, -, hadd, hoff, -, -, hred⟩ := C5_full_wraparound idleState
    ⟨by decide, by decide, by decide, by decide, by decide⟩ 9 5000000000 (by decide)
  refine ⟨rw2, hadd, hoff, ?_⟩
  rw [hred rfl]
  refine congrArg (fun l => some (rw2, l)) ?_
  decide

/-- C9 (totality under valid configuration). On a valid state, for every clock reading and every
visitor, `Add` and `Reduce` complete. Along the way the division in `span` and the remainders
have a non-zero divisor, `span` returns a value in `[0, size]`, every index handed to
`window.resetBucket` and the index handed to `window.add` lie in `[0, size)`, and whenever
`Reduce` calls `window.reduce` the start index is in `[0, size)` and the count in `(0, size]`. -/
theorem C9_totality {σ : Type} (rw : RollingWindow) (hv : rw.Valid) (v : ℚ) (t1 t2 now : Int)
    (fn : Visitor σ) (s : σ) :
    (∃ sp, rw.span t1 = some sp ∧ 0 ≤ sp ∧ sp ≤ rw.size ∧
      (∀ i : Int, 0 ≤ i → i < sp →
        ∃ idx, goMod (rw.offset + i + 1) rw.size = some idx ∧ 0 ≤ idx ∧ idx < rw.size) ∧
      (∃ off, goMod (rw.offset + sp) rw.size = some off ∧ 0 ≤ off ∧ off < rw.size) ∧
      (∃ r, goMod (t2 - rw.lastTime) rw.interval = some r)) ∧
    (∃ rw0 rw1, rw.updateOffset t1 t2 = some rw0 ∧ 0 ≤ rw0.offset ∧ rw0.offset < rw0.win.size ∧
      rw0.win.size = rw.size ∧ rw.Add v t1 t2 = some rw1) ∧
    (∃ sp, rw.span now = some sp ∧ (0 < rw.diff sp →
      ∃ start, goMod (rw.offset + sp + 1) rw.size = some start ∧ 0 ≤ start ∧ start < rw.size ∧
        rw.diff sp ≤ rw.size)) ∧
    (∃ r, rw.Reduce fn now s = some r) := by
  have hsz : 0 < rw.size := by have := hv.size_pos; omega
  have hint := hv.interval_pos
  have ho := hv.offset_nonneg
  obtain ⟨sp, hsp⟩ : ∃ sp, rw.span t1 = some sp := ⟨_, rw.span_eq t1 hint⟩
  obtain ⟨h0, h1⟩ := rw.span_bounds (by omega) hsp
  obtain ⟨sp', hsp'⟩ : ∃ sp, rw.span now = some sp := ⟨_, rw.span_eq now hint⟩
  obtain ⟨h0', h1'⟩ := rw.span_bounds (by omega) hsp'
  refine ⟨⟨sp, hsp, h0, h1, ?_, ?_, ?_⟩, ?_, ⟨sp', hsp', fun _ => ?_⟩, ?_⟩
  · intro i hi0 _
    exact ⟨_, goMod_of_nonneg (by omega) hsz, Int.emod_nonneg _ (by omega),
      Int.emod_lt_of_pos _ hsz⟩
  · exact ⟨_, goMod_of_nonneg (by omega) hsz, Int.emod_nonneg _ (by omega),
      Int.emod_lt_of_pos _ hsz⟩
  · refine ⟨(t2 - rw.lastTime).tmod rw.interval, ?_⟩
    unfold goMod
    rw [if_neg (by omega)]
  · obtain ⟨w0, hupd, hs0, -⟩ := rw.updateOffset_spec hv hsp t2
    obtain ⟨w, hadd, -, -⟩ := rw.Add_spec hv v hsp t2
    refine ⟨_, _, hupd, Int.emod_nonneg _ (by omega), ?_, hs0, hadd⟩
    show (rw.offset + sp) % rw.size < w0.size
    rw [hs0]
    exact Int.emod_lt_of_pos _ hsz
  · exact ⟨_, goMod_of_nonneg (by omega) hsz, Int.emod_nonneg _ (by omega),
      Int.emod_lt_of_pos _ hsz, rw.diff_le h0'⟩
  · obtain ⟨w, s1, hred, -⟩ := rw.Reduce_total hv fn now s
    exact ⟨_, hred⟩

/-- Witness of C9: the scenario state, an `Add(3)` two intervals later and a `Reduce`. -/
theorem C9_totality_witness :
    (∃ rw0 rw1, scenarioState.updateOffset 3000000000 3000000000 = some rw0 ∧
      0 ≤ rw0.offset ∧ rw0.offset < rw0.win.size ∧ rw0.win.size = scenarioState.size ∧
      scenarioState.Add 3 3000000000 3000000000 = some rw1) ∧
    (∃ r, scenarioState.Reduce recorder 2000000000 [] = some r) :=
  have h := C9_totality scenarioState
    ⟨by decide, by decide, by decide, by decide, by decide⟩ 3 3000000000 3000000000 2000000000
    recorder []
  ⟨h.2.1, h.2.2.2⟩

/-- C1 (aggregation matches the event history). Take a valid window (`size >= 1`,
`interval > 0`, `0 <= offset < size`) with `ignoreCurrent = false` whose buckets are all zero,
and write `t0` for its `lastTime`. For every sequence of `Add(v_j)` calls at non-decreasing
clock readings `t0 <= t_1 <= ... <= t_n` (one reading per call) and every `Reduce` at a reading
`t >= t_n`, all calls complete, the `sum` fields of the buckets `Reduce` visits add up to the sum
of exactly those `v_j` with `floor((t - t0)/interval) - floor((t_j - t0)/interval) < size`, and
their `count` fields add up to the number of such `j`. -/
theorem C1_aggregation_matches_history (rw : RollingWindow) (hv : rw.Valid)
    (hic : rw.ignoreCurrent = false) (hzero : ∀ b ∈ rw.win.buckets, b = Bucket.zero)
    (es : List (ℚ × Int)) (t : Int)
    (hmono : List.Chain (fun a b : Int => a ≤ b) rw.lastTime (es.map Prod.snd ++ [t])) :
    ∃ rw1 log, addAll rw es = some rw1 ∧ rw1.Reduce recorder t [] = some (rw1, log) ∧
      (log.map fun e => e.2.sum).sum = ((es.filter fun e => decide
        ((t - rw.lastTime) / rw.interval - (e.2 - rw.lastTime) / rw.interval < rw.size)).map
          Prod.fst).sum ∧
      (log.map fun e => e.2.count).sum = (((es.filter fun e => decide
        ((t - rw.lastTime) / rw.interval - (e.2 - rw.lastTime) / rw.interval < rw.size)).length
          : Nat) : Int) := by
  obtain ⟨rw1, tp1, hall, h1, hle, hs, hi, hc⟩ :=
    (History.init rw hv hzero).after_adds es t hmono
  rw [List.nil_append] at h1
  obtain ⟨sp, hsp, hsp0, hsp1, hcase⟩ := h1.span_cases hle
  obtain ⟨log, hred, hsum, hcount⟩ := h1.read_totals hsp
  have hd : rw1.diff sp = rw1.size - sp := by
    unfold RollingWindow.diff
    rw [if_neg]
    rw [hc, hic]
    simp
  have hfilter : (es.filter fun e => decide
      (intervalOf rw.lastTime rw1.interval tp1 - rw1.size + sp + 1
          ≤ intervalOf rw.lastTime rw1.interval e.2 ∧
        intervalOf rw.lastTime rw1.interval e.2
          < intervalOf rw.lastTime rw1.interval tp1 - rw1.size + sp + 1
            + ((rw1.diff sp).toNat : Int)))
      = es.filter fun e => decide
        ((t - rw.lastTime) / rw.interval - (e.2 - rw.lastTime) / rw.interval < rw.size) := by
    apply List.filter_congr
    intro e he
    apply decide_eq_decide.mpr
    have hseen := h1.seen e he
    rw [hd]
    rw [← hi, ← hs]
    show _ ↔ intervalOf rw.lastTime rw1.interval t - intervalOf rw.lastTime rw1.interval e.2
      < rw1.size
    rcases hcase with hcs | hcs <;> omega
  rw [hfilter] at hsum hcount
  exact ⟨rw1, log, hall, hred, hsum, hcount⟩

/-- Witness of C1: three buckets, `interval = 1s`; `Add(1)` at 0s, `Add(2)` at 1.2s, `Add(5)` at
4.1s and a `Reduce` at 4.5s: only the last value is within three intervals of the read. -/
theorem C1_aggregation_matches_history_witness :
    ∃ rw1 log, addAll scenarioInit [(1, 0), (2, 1200000000), (5, 4100000000)] = some rw1 ∧
      rw1.Reduce recorder 4500000000 [] = some (rw1, log) ∧
      (log.map fun e => e.2.sum).sum = 5 ∧ (log.map fun e => e.2.count).sum = 1 := by
  obtain ⟨rw1, log, hall, hred, hsum, hcount⟩ := C1_aggregation_matches_history scenarioInit
    ⟨by decide, by decide, by decide, by decide, by decide⟩ rfl (by decide)
    [(1, 0), (2, 1200000000), (5, 4100000000)] 4500000000 (by simp [scenarioInit])
  refine ⟨rw1, log, hall, hred, ?_, ?_⟩
  · rw [hsum]
    simp [scenarioInit, List.filter]
  · rw [hcount]
    decide

/-! ## The claims on `span`, `updateOffset` and `Add` -/

/-- C12 as stated fails for a clock reading just before `lastTime`: on `tenUnitState`
(`interval = 10`, `lastTime = 5`) the reading 4 gives `elapsed = -1`, whose floor quotient is
`-1`, so the reference definition returns `size = 3`, while the source, whose quotient truncates
toward zero, returns 0. -/
theorem C12_counterexample :
    ¬ (∀ (rw : RollingWindow) (now : Int), 1 ≤ rw.size → 0 < rw.interval →
        rw.span now = some (spanRef rw.size rw.interval rw.lastTime now)) := by
  intro h
  have h1 := h tenUnitState 4 (by decide) (by decide)
  have h2 : tenUnitState.span 4 = some 0 := by decide
  have h3 : spanRef tenUnitState.size tenUnitState.interval tenUnitState.lastTime 4 = 3 := by
    decide
  rw [h2, h3] at h1
  exact absurd h1 (by decide)

/-- C12 (amended: agreement with the reference definition outside the last interval before
`lastTime`). With `size >= 1` and `interval > 0`: whenever `elapsed = now - lastTime` satisfies
`elapsed >= 0` or `elapsed <= -interval`, `span()` returns the value of the reference definition,
that is `floor(elapsed / interval)` when that value `d` satisfies `0 <= d < size` and `size`
otherwise; at exactly `elapsed = size * interval` it returns `size`; and for
`-interval < elapsed < 0` it returns 0. -/
theorem C12_span_reference (rw : RollingWindow) (hsize : 1 ≤ rw.size) (hint : 0 < rw.interval)
    (now : Int) :
    (0 ≤ now - rw.lastTime ∨ now - rw.lastTime ≤ -rw.interval →
      rw.span now = some (spanRef rw.size rw.interval rw.lastTime now)) ∧
    (now - rw.lastTime = rw.size * rw.interval → rw.span now = some rw.size) ∧
    (-rw.interval < now - rw.lastTime ∧ now - rw.lastTime < 0 → rw.span now = some 0) := by
  refine ⟨fun h => ?_, fun h => ?_, fun h => ?_⟩
  · rw [rw.span_eq now hint]
    unfold spanRef
    simp only [Int.fdiv_eq_ediv _ (le_of_lt hint)]
    rcases h with h | h
    · rw [Int.tdiv_eq_ediv h (le_of_lt hint)]
    · have hneg : now - rw.lastTime < 0 := by omega
      have hfloor : (now - rw.lastTime) / rw.interval < 0 := Int.ediv_neg' hneg hint
      have htrunc : (now - rw.lastTime).tdiv rw.interval < 0 := by
        have e : now - rw.lastTime = -(-(now - rw.lastTime)) := by ring
        rw [e, Int.neg_tdiv, Int.tdiv_eq_ediv (by omega) (le_of_lt hint)]
        have : 1 ≤ (-(now - rw.lastTime)) / rw.interval :=
          Int.le_ediv_of_mul_le hint (by omega)
        omega
      rw [if_neg (by omega), if_neg (by omega)]
  · exact rw.span_expired hint (le_of_eq h.symm) (by omega)
  · rw [rw.span_eq now hint]
    have htrunc : (now - rw.lastTime).tdiv rw.interval = 0 := by
      have e : now - rw.lastTime = -(-(now - rw.lastTime)) := by ring
      rw [e, Int.neg_tdiv, Int.tdiv_eq_zero_of_lt (by omega) (by omega)]
      rfl
    rw [htrunc, if_pos ⟨le_refl _, by omega⟩]

/-- Witness of C12 (amended): on `tenUnitState` the reading 27 has `elapsed = 22` and span 2,
the reading 35 has `elapsed = size * interval`, and the reading 4 has `elapsed = -1`. -/
theorem C12_span_reference_witness :
    tenUnitState.span 27 = some (spanRef 3 10 5 27) ∧ spanRef 3 10 5 27 = 2 ∧
      tenUnitState.span 35 = some 3 ∧ tenUnitState.span 4 = some 0 :=
  ⟨(C12_span_reference tenUnitState (by decide) (by decide) 27).1 (Or.inl (by decide)),
    by decide,
    (C12_span_reference tenUnitState (by decide) (by decide) 35).2.1 (by decide),
    (C12_span_reference tenUnitState (by decide) (by decide) 4).2.2 ⟨by decide, by decide⟩⟩

/-- C14 (Add within the current interval). On a valid state, at a clock reading with
`span() = 0`, `updateOffset` returns the state unchanged (no bucket is reset), and `Add(v)`
completes, leaves `size`, `interval`, `ignoreCurrent`, `offset` and `lastTime` unchanged, adds
`v` to the sum and 1 to the count of the bucket at `offset`, and leaves every other bucket
unchanged. -/
theorem C14_add_within_interval (rw : RollingWindow) (hv : rw.Valid) (v : ℚ) (t1 t2 : Int)
    (hspan : rw.span t1 = some 0) :
    rw.updateOffset t1 t2 = some rw ∧
    ∃ w, rw.Add v t1 t2 = some { rw with win := w } ∧ w.size = rw.size ∧
      w.bucketAt rw.offset = some
        { sum := (rw.win.peek rw.offset).sum + v, count := (rw.win.peek rw.offset).count + 1 } ∧
      ∀ j, j ≠ rw.offset → w.bucketAt j = rw.win.bucketAt j := by
  have hsz : 0 < rw.size := by have := hv.size_pos; omega
  have hoff : (rw.offset + 0) % rw.size = rw.offset := by
    rw [add_zero, Int.emod_eq_of_lt hv.offset_nonneg hv.offset_lt]
  have hupd : rw.updateOffset t1 t2 = some rw := by
    unfold RollingWindow.updateOffset
    rw [hspan]
    rfl
  refine ⟨hupd, ?_⟩
  obtain ⟨w, hadd, hs, hb⟩ := rw.Add_spec hv v hspan t2
  have hfwd : ∀ j : Int, ¬ (j - rw.offset - 1) % rw.size < 0 := by
    intro j
    have := Int.emod_nonneg (j - rw.offset - 1) (b := rw.size) (by omega)
    omega
  refine ⟨w, ?_, hs, ?_, ?_⟩
  · rw [hadd, hoff]
    rfl
  · rw [hb _ hv.offset_nonneg hv.offset_lt, hoff, if_pos rfl, if_neg (hfwd _)]
    rfl
  · intro j hj
    by_cases hr : 0 ≤ j ∧ j < rw.size
    · rw [hb j hr.1 hr.2, hoff, if_neg hj, if_neg (hfwd _)]
      exact (rw.win.bucketAt_eq_peek hr.1 (by rw [hv.win_size]; exact hr.2)).symm
    · unfold window.bucketAt
      rw [if_neg (by rw [hs]; exact hr), if_neg (by rw [hv.win_size]; exact hr)]

/-- Witness of C14: on the scenario state a second `Add(4)` at `t = 1.7s` stays in the interval
that started at `1s`: slot 1 goes from `(2, 1)` to `(6, 2)`. -/
theorem C14_add_within_interval_witness :
    scenarioState.span 1700000000 = some 0 ∧
      ∃ w, scenarioState.Add 4 1700000000 1700000000 = some { scenarioState with win := w } ∧
        w.bucketAt 1 = some { sum := 2 + 4, count := 1 + 1 } := by
  obtain ⟨-, w, hadd, -, hcur, -⟩ := C14_add_within_interval scenarioState
    ⟨by decide, by decide, by decide, by decide, by decide⟩ 4 1700000000 1700000000 (by decide)
  exact ⟨by decide, w, hadd, hcur⟩

/-- C15 (Add across `s` interval boundaries). On a valid state, at a clock reading with
`span() = s`, `0 < s < size`: `updateOffset` sets `offset` to `(offset + s) % size` and resets
exactly the buckets at the slots `(offset + k) % size`, `1 <= k <= s` (every other bucket is as
before); `Add(v)` then completes and leaves the bucket at the new `offset` with `sum = v` and
`count = 1`, the buckets strictly between the old and the new write position empty, and every
bucket outside the run, the one at the old `offset` included, unchanged. -/
theorem C15_add_across_boundaries (rw : RollingWindow) (hv : rw.Valid) (v : ℚ)
    (t1 t2 s : Int) (hspan : rw.span t1 = some s) (hs0 : 0 < s) (hs1 : s < rw.size) :
    ∃ w0 w,
      rw.updateOffset t1 t2 = some { rw with
        win := w0
        offset := (rw.offset + s) % rw.size
        lastTime := t2 - (t2 - rw.lastTime).tmod rw.interval } ∧
      (∀ k : Int, 1 ≤ k → k ≤ s →
        w0.bucketAt ((rw.offset + k) % rw.size) = some { sum := 0, count := 0 }) ∧
      (∀ j, (∀ k : Int, 1 ≤ k → k ≤ s → (rw.offset + k) % rw.size ≠ j) →
        w0.bucketAt j = rw.win.bucketAt j) ∧
      rw.Add v t1 t2 = some { rw with
        win := w
        offset := (rw.offset + s) % rw.size
        lastTime := t2 - (t2 - rw.lastTime).tmod rw.interval } ∧
      w.bucketAt ((rw.offset + s) % rw.size) = some { sum := v, count := 1 } ∧
      (∀ k : Int, 1 ≤ k → k < s →
        w.bucketAt ((rw.offset + k) % rw.size) = some { sum := 0, count := 0 }) ∧
      (∀ j, (∀ k : Int, 1 ≤ k → k ≤ s → (rw.offset + k) % rw.size ≠ j) →
        w.bucketAt j = rw.win.bucketAt j) ∧
      w.bucketAt rw.offset = rw.win.bucketAt rw.offset := by
  have hsz : 0 < rw.size := by have := hv.size_pos; omega
  have hne : ¬ s = 0 := by omega
  obtain ⟨w0, hupd, hs0w, hb0⟩ := rw.updateOffset_spec hv hspan t2
  obtain ⟨w, hadd, hsw, hb⟩ := rw.Add_spec hv v hspan t2
  rw [if_neg hne] at hupd hadd
  have hrange : ∀ k : Int, 0 ≤ (rw.offset + k) % rw.size ∧ (rw.offset + k) % rw.size < rw.size :=
    fun k => ⟨Int.emod_nonneg _ (by omega), Int.emod_lt_of_pos _ hsz⟩
  have hin : ∀ k : Int, 1 ≤ k → k ≤ s →
      ((rw.offset + k) % rw.size - rw.offset - 1) % rw.size < s := fun k hk1 hk2 =>
    (run_iff_forward hsz (le_of_lt hs1) (hrange k).1 (hrange k).2).mp ⟨k, hk1, hk2, rfl⟩
  have hout : ∀ j, 0 ≤ j → j < rw.size →
      (∀ k : Int, 1 ≤ k → k ≤ s → (rw.offset + k) % rw.size ≠ j) →
      ¬ (j - rw.offset - 1) % rw.size < s := by
    intro j hj0 hj1 hj hlt
    obtain ⟨k, hk1, hk2, heq⟩ := (run_iff_forward hsz (le_of_lt hs1) hj0 hj1).mpr hlt
    exact hj k hk1 hk2 heq
  have hnone : ∀ (u : window) (j : Int), u.size = rw.size → ¬ (0 ≤ j ∧ j < rw.size) →
      u.bucketAt j = none := by
    intro u j hu hj
    unfold window.bucketAt
    rw [if_neg (by rw [hu]; exact hj)]
  have hinj : ∀ k : Int, 1 ≤ k → k < s →
      ¬ (rw.offset + k) % rw.size = (rw.offset + s) % rw.size := by
    intro k hk1 hk2 heq
    have := mod_add_inj (by omega) (by omega) (by omega) hs1 heq
    omega
  have hwout : ∀ j, (∀ k : Int, 1 ≤ k → k ≤ s → (rw.offset + k) % rw.size ≠ j) →
      w.bucketAt j = rw.win.bucketAt j := by
    intro j hj
    by_cases hr : 0 ≤ j ∧ j < rw.size
    · rw [hb j hr.1 hr.2, if_neg (Ne.symm (hj s hs0 (le_refl _))),
        if_neg (hout j hr.1 hr.2 hj)]
      exact (rw.win.bucketAt_eq_peek hr.1 (by rw [hv.win_size]; exact hr.2)).symm
    · rw [hnone w j hsw hr, hnone rw.win j hv.win_size hr]
  refine ⟨w0, w, hupd, ?_, ?_, hadd, ?_, ?_, hwout, ?_⟩
  · intro k hk1 hk2
    rw [hb0 _ (hrange k).1 (hrange k).2, if_pos (hin k hk1 hk2)]
    rfl
  · intro j hj
    by_cases hr : 0 ≤ j ∧ j < rw.size
    · rw [hb0 j hr.1 hr.2, if_neg (hout j hr.1 hr.2 hj)]
    · rw [hnone w0 j hs0w hr, hnone rw.win j hv.win_size hr]
  · rw [hb _ (hrange s).1 (hrange s).2, if_pos rfl, if_pos (hin s hs0 (le_refl _))]
    simp [Bucket.add, Bucket.zero]
  · intro k hk1 hk2
    rw [hb _ (hrange k).1 (hrange k).2, if_neg (hinj k hk1 hk2),
      if_pos (hin k hk1 (le_of_lt hk2))]
    rfl
  · apply hwout
    intro k hk1 hk2 heq
    have e : rw.offset = (rw.offset + 0) % rw.size := by
      rw [add_zero, Int.emod_eq_of_lt hv.offset_nonneg hv.offset_lt]
    have := mod_add_inj (by omega) (by omega) (le_refl 0) hsz (heq.trans e)
    omega

/-- Witness of C15: the scenario of section 8. After `Add(1)` at `t = 0`, an `Add(2)` at
`t = 1.2s` has span 1: bucket 0 keeps sum 1, bucket 1 becomes current with sum 2, bucket 2 is
untouched and zero. -/
theorem C15_add_across_boundaries_witness :
    scenarioInit.Add 1 0 0 = some { scenarioInit with
        win := { buckets := [{ sum := 1, count := 1 }, Bucket.zero, Bucket.zero] } } ∧
      ∃ w, RollingWindow.Add { scenarioInit with
          win := { buckets := [{ sum := 1, count := 1 }, Bucket.zero, Bucket.zero] } }
          2 1200000000 1200000000
          = some { scenarioInit with win := w, offset := 1, lastTime := 1000000000 } ∧
        w.bucketAt 0 = some { sum := 1, count := 1 } ∧
        w.bucketAt 1 = some { sum := 2, count := 1 } ∧
        w.bucketAt 2 = some { sum := 0, count := 0 } := by
  constructor
  · have e1 : Int.tdiv 0 1000000000 = 0 := by decide
    simp [scenarioInit, RollingWindow.Add, RollingWindow.updateOffset, RollingWindow.span, goDiv,
      timex.Since, window.add, window.bucketAt, window.store, window.size, Bucket.add,
      Bucket.zero, e1]
  · obtain ⟨w0, w, -, -, -, hadd, hnew, -, hout, hold⟩ := C15_add_across_boundaries
      { scenarioInit with
        win := { buckets := [{ sum := 1, count := 1 }, Bucket.zero, Bucket.zero] } }
      ⟨by decide, by decide, by decide, by decide, by decide⟩ 2 1200000000 1200000000 1
      (by decide) (by decide) (by decide)
    refine ⟨w, hadd, ?_, hnew, ?_⟩
    · rw [show (0 : Int) = scenarioInit.offset from rfl]
      exact hold
    · rw [hout 2 (by
        intro k hk1 hk2
        have hk : k = 1 := by omega
        subst hk
        decide)]
      decide

/-- C13 (lastTime re-alignment). On a valid state, an `Add` at a clock reading
`now >= lastTime` (one reading for the whole call) completes with a new `lastTime` that
satisfies `lastTime' <= now < lastTime' + interval` and exceeds the old one by a non-negative
whole multiple of `interval`. Hence after any sequence of such calls at non-decreasing readings
`lastTime` differs from its initial value by a non-negative multiple of `interval`, so it is
congruent to it modulo `interval`. -/
theorem C13_lastTime_realignment (rw : RollingWindow) (hv : rw.Valid) (v : ℚ) (now : Int)
    (hnow : rw.lastTime ≤ now) (es : List (ℚ × Int))
    (hmono : List.Chain (fun a b : Int => a ≤ b) rw.lastTime (es.map Prod.snd)) :
    (∃ rw1, rw.Add v now now = some rw1 ∧
      rw1.lastTime ≤ now ∧ now < rw1.lastTime + rw.interval ∧
      ∃ k : Int, 0 ≤ k ∧ rw1.lastTime - rw.lastTime = k * rw.interval) ∧
    (∃ rw2, addAll rw es = some rw2 ∧
      (∃ k : Int, 0 ≤ k ∧ rw2.lastTime - rw.lastTime = k * rw.interval) ∧
      rw2.lastTime % rw.interval = rw.lastTime % rw.interval) := by
  constructor
  · obtain ⟨rw1, hadd, -, -, hle, hlt, hlast⟩ := rw.Add_realign hv v hnow
    refine ⟨rw1, hadd, hle, hlt, (now - rw.lastTime) / rw.interval, ?_, ?_⟩
    · exact Int.ediv_nonneg (by omega) (le_of_lt hv.interval_pos)
    · rw [hlast]
      ring
  · obtain ⟨rw2, hall, -, k, hk0, hk⟩ := rw.addAll_realign hv es rw.lastTime (le_refl _) hmono
    refine ⟨rw2, hall, ⟨k, hk0, hk⟩, ?_⟩
    have e : rw2.lastTime = rw.lastTime + k * rw.interval := by omega
    rw [e, Int.add_mul_emod_self]

/-- Witness of C13: the scenario window, an `Add` at `t = 1.2s`, and the sequence of `Add`s at
0s, 1.2s and 4.1s. -/
theorem C13_lastTime_realignment_witness :
    (∃ rw1, scenarioInit.Add 2 1200000000 1200000000 = some rw1 ∧
      rw1.lastTime ≤ 1200000000 ∧ 1200000000 < rw1.lastTime + 1000000000 ∧
      ∃ k : Int, 0 ≤ k ∧ rw1.lastTime - 0 = k * 1000000000) ∧
    (∃ rw2, addAll scenarioInit [(1, 0), (2, 1200000000), (5, 4100000000)] = some rw2 ∧
      (∃ k : Int, 0 ≤ k ∧ rw2.lastTime - 0 = k * 1000000000) ∧
      rw2.lastTime % 1000000000 = 0 % 1000000000) :=
  C13_lastTime_realignment scenarioInit ⟨by decide, by decide, by decide, by decide, by decide⟩
    2 1200000000 (by decide) [(1, 0), (2, 1200000000), (5, 4100000000)]
    (by simp [scenarioInit])

/-- C16 (aggregation with `ignoreCurrent = true`). Take a valid window with
`ignoreCurrent = true` whose buckets are all zero, and write `t0` for its `lastTime`. For every
sequence of `Add(v_j)` calls at non-decreasing clock readings `t0 <= t_1 <= ... <= t_n` (one
reading per call) and every `Reduce` at a reading `t >= t_n`, all calls complete, the `sum`
fields of the buckets `Reduce` visits add up to the sum of exactly those `v_j` with
`1 <= floor((t - t0)/interval) - floor((t_j - t0)/interval) < size`, and their `count` fields
add up to the number of such `j`. -/
theorem C16_aggregation_ignoreCurrent (rw : RollingWindow) (hv : rw.Valid)
    (hic : rw.ignoreCurrent = true) (hzero : ∀ b ∈ rw.win.buckets, b = Bucket.zero)
    (es : List (ℚ × Int)) (t : Int)
    (hmono : List.Chain (fun a b : Int => a ≤ b) rw.lastTime (es.map Prod.snd ++ [t])) :
    ∃ rw1 log, addAll rw es = some rw1 ∧ rw1.Reduce recorder t [] = some (rw1, log) ∧
      (log.map fun e => e.2.sum).sum = ((es.filter fun e => decide
        (1 ≤ (t - rw.lastTime) / rw.interval - (e.2 - rw.lastTime) / rw.interval ∧
          (t - rw.lastTime) / rw.interval - (e.2 - rw.lastTime) / rw.interval < rw.size)).map
            Prod.fst).sum ∧
      (log.map fun e => e.2.count).sum = (((es.filter fun e => decide
        (1 ≤ (t - rw.lastTime) / rw.interval - (e.2 - rw.lastTime) / rw.interval ∧
          (t - rw.lastTime) / rw.interval - (e.2 - rw.lastTime) / rw.interval < rw.size)).length
            : Nat) : Int) := by
  obtain ⟨rw1, tp1, hall, h1, hle, hs, hi, hc⟩ :=
    (History.init rw hv hzero).after_adds es t hmono
  rw [List.nil_append] at h1
  obtain ⟨sp, hsp, hsp0, hsp1, hcase⟩ := h1.span_cases hle
  obtain ⟨log, hred, hsum, hcount⟩ := h1.read_totals hsp
  have hsz := h1.valid.size_pos
  have hd : rw1.diff sp = if sp = 0 then rw1.size - 1 else rw1.size - sp := by
    unfold RollingWindow.diff
    by_cases hz : sp = 0
    · rw [if_pos ⟨hz, hc.trans hic⟩, if_pos hz]
    · rw [if_neg (fun h => hz h.1), if_neg hz]
  have hfilter : (es.filter fun e => decide
      (intervalOf rw.lastTime rw1.interval tp1 - rw1.size + sp + 1
          ≤ intervalOf rw.lastTime rw1.interval e.2 ∧
        intervalOf rw.lastTime rw1.interval e.2
          < intervalOf rw.lastTime rw1.interval tp1 - rw1.size + sp + 1
            + ((rw1.diff sp).toNat : Int)))
      = es.filter fun e => decide
        (1 ≤ (t - rw.lastTime) / rw.interval - (e.2 - rw.lastTime) / rw.interval ∧
          (t - rw.lastTime) / rw.interval - (e.2 - rw.lastTime) / rw.interval < rw.size) := by
    apply List.filter_congr
    intro e he
    apply decide_eq_decide.mpr
    have hseen := h1.seen e he
    rw [hd]
    rw [← hi, ← hs]
    show _ ↔ 1 ≤ intervalOf rw.lastTime rw1.interval t - intervalOf rw.lastTime rw1.interval e.2
      ∧ intervalOf rw.lastTime rw1.interval t - intervalOf rw.lastTime rw1.interval e.2
        < rw1.size
    by_cases hz : sp = 0
    · rw [if_pos hz]
      rcases hcase with hcs | hcs <;> omega
    · rw [if_neg hz]
      rcases hcase with hcs | hcs <;> omega
  rw [hfilter] at hsum hcount
  exact ⟨rw1, log, hall, hred, hsum, hcount⟩

/-- Witness of C16: five buckets, `interval = 1`; `Add(1)` at 0, `Add(2)` at 1, `Add(4)` and
`Add(8)` at 3, and a `Reduce` at 3: the two values of the open interval are left out. -/
theorem C16_aggregation_ignoreCurrent_witness :
    ∃ rw1 log, addAll (fiveBuckets true) [(1, 0), (2, 1), (4, 3), (8, 3)] = some rw1 ∧
      rw1.Reduce recorder 3 [] = some (rw1, log) ∧
      (log.map fun e => e.2.sum).sum = 3 ∧ (log.map fun e => e.2.count).sum = 2 := by
  obtain ⟨rw1, log, hall, hred, hsum, hcount⟩ := C16_aggregation_ignoreCurrent
    (fiveBuckets true) ⟨by decide, by decide, by decide, by decide, by decide⟩ rfl (by decide)
    [(1, 0), (2, 1), (4, 3), (8, 3)] 3 (by simp [fiveBuckets])
  refine ⟨rw1, log, hall, hred, ?_, ?_⟩
  · rw [hsum]
    simp [fiveBuckets, List.filter]
    norm_num
  · rw [hcount]
    decide

/-- C17 fails on the source: on the scenario window (`interval = 1s`, `lastTime = 0`,
`offset = 0`) take an `Add` whose `span()` reads the clock at `1.999999999s` and whose
`timex.Now()` reads it at `2.000000001s`. The span is 1 and `offset` advances by one slot, but
`lastTime` becomes `2s`, two intervals after the old one, not `lastTime + 1 * interval = 1s`. -/
theorem C17_clock_moves_inside_add :
    scenarioInit.lastTime ≤ 1999999999 ∧ (1999999999 : Int) ≤ 2000000001 ∧
      scenarioInit.span 1999999999 = some 1 ∧
      scenarioInit.updateOffset 1999999999 2000000001
        = some { scenarioInit with offset := 1, lastTime := 2000000000 } ∧
      (2000000000 : Int) ≠ scenarioInit.lastTime + 1 * scenarioInit.interval := by
  refine ⟨by decide, by decide, by decide, by decide, by decide⟩

end GoLearning
